import Mathlib

/-!
# conf: populating a configuration struct from the environment

A shallow embedding of `conf.go` (package `conf`): the name derivation
`toEnvVarName`, the type-directed converter `set` and the field walk
`Unmarshal`, followed by theorems about them.

Conventions of the embedding.

* A Go string is the list of its code points (`Str`); the text is taken to be
  valid UTF-8, as Go source text and environment values normally are.
* The parts of the Go standard library that `conf.go` calls are written out
  here from their documented behaviour (`strings.Split`, `strings.TrimSpace`,
  `strconv.Atoi`, `strconv.ParseBool`, the two regular expressions), except two
  tables that are taken as parameters (`Lib`): the Unicode upper-case mapping
  of non-ASCII code points and `strconv.ParseFloat`.
* `int` is 64 bits wide (`strconv.IntSize = 64`).
* Mutation through `reflect.Value` is explicit state passing: a function that
  writes to a field returns the error together with the field's state after
  the call.
-/

namespace Conf

/-- A Go string: the sequence of its code points. -/
abbrev Str := List Char

/-! ## Characters -/

/-- The regular-expression class `[A-Z]`. -/
def isUpperAZ (c : Char) : Bool := decide (65 ≤ c.toNat) && decide (c.toNat ≤ 90)

/-- The regular-expression class `[a-z]`. -/
def isLowerAZ (c : Char) : Bool := decide (97 ≤ c.toNat) && decide (c.toNat ≤ 122)

/-- The class `[0-9]`. -/
def isDigit09 (c : Char) : Bool := decide (48 ≤ c.toNat) && decide (c.toNat ≤ 57)

/-- The regular-expression class `[a-z0-9]`. -/
def isLowerOrDigit (c : Char) : Bool := isLowerAZ c || isDigit09 c

/-- The regular-expression atom `.`: any code point but the newline. -/
def isDot (c : Char) : Bool := decide (c ≠ '\n')

/-- An ASCII letter or digit. -/
def isAlnum (c : Char) : Bool := isUpperAZ c || isLowerAZ c || isDigit09 c

/-- Go `unicode.IsSpace`: the code points with the Unicode White_Space
property, which is what `strings.TrimSpace` removes. -/
def isSpace (c : Char) : Bool :=
  let n := c.toNat
  decide (9 ≤ n ∧ n ≤ 13) || n == 0x20 || n == 0x85 || n == 0xA0 || n == 0x1680 ||
    decide (0x2000 ≤ n ∧ n ≤ 0x200A) || n == 0x2028 || n == 0x2029 || n == 0x202F ||
    n == 0x205F || n == 0x3000

/-- The two values of `NumError.Err`: `strconv.ErrSyntax` and
`strconv.ErrRange`. -/
inductive NumErr where
  | syntaxErr
  | rangeErr
  deriving DecidableEq

/-- The errors `Unmarshal` and `set` can return. -/
inductive Err where
  /-- The sentinel `ErrInvalidValue`. -/
  | invalidValue
  /-- The sentinel `ErrUnsupported`. -/
  | unsupported
  /-- The sentinel `ErrUnexported`. -/
  | unexported
  /-- A `*strconv.NumError` with its fields `Func`, `Num` and `Err`. -/
  | num (fn : String) (text : Str) (err : NumErr)
  /-- The error `fmt.Errorf("invalid map item: %q", pair)`. -/
  | mapItem (pair : Str)
  deriving DecidableEq

/-- The parts of the Go standard library taken as parameters. -/
structure Lib where
  /-- The map `unicode.ToUpper` on code points outside ASCII. -/
  upperRune : Char → Char
  /-- The call `strconv.ParseFloat(s, bitSize)`: the IEEE-754 binary64 bit
  pattern of the result, or the `Err` of the `NumError` it returns. -/
  parseFloat : Str → Nat → Except NumErr Nat

/-- Go `unicode.ToUpper`: `a`..`z` go to `A`..`Z`, other ASCII code points
stay, the rest follows the Unicode table. -/
def toUpperRune (L : Lib) (c : Char) : Char :=
  if c.toNat < 128 then (if isLowerAZ c then Char.ofNat (c.toNat - 32) else c)
  else L.upperRune c

/-- Go `strings.ToUpper`. -/
def toUpper (L : Lib) (s : Str) : Str := s.map (toUpperRune L)

/-! ## Name derivation -/

/-- The call `matchFirstCap.ReplaceAllString(str, "${1}_${2}")` for
`matchFirstCap = (.)([A-Z][a-z]+)`.

Matches are leftmost, greedy and do not overlap.  A match starts at `c` when
`c` is not a newline, the next code point is in `[A-Z]` and the one after it in
`[a-z]`; it then runs to the end of that block of `[a-z]`.  The flag `inRun`
says that the scan is inside the `[a-z]+` block of the match just made: those
code points are consumed by that match, so they are copied and none of them can
start a match. -/
def replaceFirstCap : Bool → Str → Str
  | inRun, c :: u :: l :: rest =>
    if inRun && isLowerAZ c then c :: replaceFirstCap true (u :: l :: rest)
    else if isDot c && isUpperAZ u && isLowerAZ l then
      c :: '_' :: u :: replaceFirstCap true (l :: rest)
    else c :: replaceFirstCap false (u :: l :: rest)
  | _, s => s

/-- The call `matchAllCap.ReplaceAllString(snake, "${1}_${2}")` for
`matchAllCap = ([a-z0-9])([A-Z])`: leftmost matches that do not overlap, each of
two code points. -/
def replaceAllCap : Str → Str
  | c :: u :: rest =>
    if isLowerOrDigit c && isUpperAZ u then c :: '_' :: u :: replaceAllCap rest
    else c :: replaceAllCap (u :: rest)
  | s => s

/-- The local `snake` of `toEnvVarName` after both replacements. -/
def snake (str : Str) : Str := replaceAllCap (replaceFirstCap false str)

/-- Go `toEnvVarName`: transforms a camelCase name to upper snake case behind
the prefix. -/
def toEnvVarName (L : Lib) (str : Str) (pre : Str) : Str :=
  pre ++ "_".toList ++ toUpper L (snake str)

/-- The wording of the specification for the snake form: an underscore comes
between `s[i] = c` and `s[i+1]` precisely when (a) `s[i]` is a lowercase letter
or a digit and `s[i+1]` is uppercase, or (b) `s[i+1]` is uppercase and
`s[i+2]` exists and is lowercase.  Here `rest` is the text after `c`. -/
def specBoundary (c : Char) (rest : Str) : Bool :=
  match rest with
  | [] => false
  | u :: rest' =>
    isUpperAZ u && (isLowerOrDigit c ||
      (match rest' with
       | [] => false
       | l :: _ => isLowerAZ l))

/-- The wording of the specification: `s` with one underscore at every
boundary of `specBoundary`, nothing else added, removed or reordered. -/
def specSnake : Str → Str
  | [] => []
  | c :: rest =>
    if specBoundary c rest then c :: '_' :: specSnake rest else c :: specSnake rest

/-! ## Library functions used by `set` -/

/-- Go `strings.Split(s, sep)` for a separator of one code point, as in the
calls `strings.Split(val, ",")` and `strings.Split(pair, ":")`: the pieces
between the separators, so one piece more than there are separators. -/
def split (sep : Char) : Str → List Str
  | [] => [[]]
  | c :: cs =>
    if c = sep then [] :: split sep cs
    else
      match split sep cs with
      | [] => [[c]]
      | p :: ps => (c :: p) :: ps

/-- Go `strings.TrimSpace`: without the leading and trailing white space. -/
def trimSpace (s : Str) : Str :=
  ((s.dropWhile isSpace).reverse.dropWhile isSpace).reverse

/-- Go `strconv.ParseBool`. -/
def parseBool (str : Str) : Except Err Bool :=
  if str = "1".toList ∨ str = "t".toList ∨ str = "T".toList ∨ str = "true".toList ∨
      str = "TRUE".toList ∨ str = "True".toList then .ok true
  else if str = "0".toList ∨ str = "f".toList ∨ str = "F".toList ∨ str = "false".toList ∨
      str = "FALSE".toList ∨ str = "False".toList then .ok false
  else .error (.num "ParseBool" str .syntaxErr)

/-- The value of a decimal digit. -/
def digitVal (c : Char) : Nat := c.toNat - 48

/-- The digit loop of `strconv.ParseUint(s, 10, 64)`, with `n` the value read
so far: a code point that is no digit is a syntax error, a value beyond
`1<<64 - 1` a range error, whichever comes first. -/
def parseUintLoop (n : Nat) : Str → Except NumErr Nat
  | [] => .ok n
  | c :: cs =>
    if !isDigit09 c then .error .syntaxErr
    else if n ≥ (2 ^ 64 - 1) / 10 + 1 then .error .rangeErr
    else if n * 10 + digitVal c > 2 ^ 64 - 1 then .error .rangeErr
    else parseUintLoop (n * 10 + digitVal c) cs

/-- Go `strconv.ParseUint(s, 10, 64)`. -/
def parseUint (s : Str) : Except NumErr Nat :=
  if s = [] then .error .syntaxErr else parseUintLoop 0 s

/-- Go `strconv.ParseInt(s, 10, 0)`, with `int` of 64 bits. -/
def parseInt (s : Str) : Except NumErr Int :=
  match s with
  | [] => .error .syntaxErr
  | c :: cs =>
    let neg := decide (c = '-')
    let digits := if c = '+' ∨ c = '-' then cs else s
    match parseUint digits with
    | .error e => .error e
    | .ok un =>
      if !neg && decide (un ≥ 2 ^ 63) then .error .rangeErr
      else if neg && decide (un > 2 ^ 63) then .error .rangeErr
      else .ok (if neg then -(un : Int) else (un : Int))

/-- Go `strconv.Atoi`, which is `ParseInt(s, 10, 0)` converted to `int`, its
errors carrying the function name `Atoi`. -/
def atoi (s : Str) : Except Err Int :=
  match parseInt s with
  | .error e => .error (.num "Atoi" s e)
  | .ok n => .ok n

/-! ## Types and values -/

/-- The signed integer kinds of `reflect`. -/
inductive IntKind where
  | int | int8 | int16 | int32 | int64
  deriving DecidableEq

/-- The width in bits of a signed integer kind. -/
def IntKind.bits : IntKind → Nat
  | .int => 64
  | .int8 => 8
  | .int16 => 16
  | .int32 => 32
  | .int64 => 64

/-- The unsigned integer kinds of `reflect`. -/
inductive UintKind where
  | uint | uint8 | uint16 | uint32 | uint64 | uintptr
  deriving DecidableEq

/-- A `reflect.Type`, as far as `set` looks into it: its kind and, for the
composite kinds, the types it is made of. -/
inductive Ty where
  | bool
  | int (k : IntKind)
  | uint (k : UintKind)
  | float32
  | float64
  | complex64
  | complex128
  | array (len : Nat) (e : Ty)
  | chan (e : Ty)
  | func
  | interface
  | map (k : Ty) (e : Ty)
  | ptr (e : Ty)
  | slice (e : Ty)
  | string
  | struct
  | unsafePointer
  deriving DecidableEq

/-- A Go value as `set` builds it.  A float is its IEEE-754 binary64 bit
pattern.  A map is the list of its entries, an entry staying where its key
was first inserted (Go itself gives a map no order).  `other` stands for a value of a kind that
`set` never builds. -/
inductive Value where
  | bool (b : Bool)
  | int (n : Int)
  | uint (n : Nat)
  | float (bits : Nat)
  | str (s : Str)
  | nilPtr
  | ptr (v : Value)
  | nilSlice
  | slice (vs : List Value)
  | nilMap
  | map (es : List (Value × Value))
  | other

/-- The zero value of a type: what `reflect.New(t).Elem()` and the elements
of `reflect.MakeSlice` hold. -/
def zero : Ty → Value
  | .bool => .bool false
  | .int _ => .int 0
  | .uint _ => .uint 0
  | .float32 => .float 0
  | .float64 => .float 0
  | .string => .str []
  | .ptr _ => .nilPtr
  | .slice _ => .nilSlice
  | .map _ _ => .nilMap
  | _ => .other

/-- What `reflect.Value.SetInt` stores in a field of `w` bits: the low `w`
bits of `x` read as a two's-complement number. -/
def wrapInt (w : Nat) (x : Int) : Int :=
  (x + 2 ^ (w - 1)) % 2 ^ w - 2 ^ (w - 1)

/-- Whether a binary64 bit pattern is a NaN. -/
def floatIsNaN (bits : Nat) : Bool :=
  (bits / 2 ^ 52) % 2 ^ 11 == 2047 && bits % 2 ^ 52 != 0

/-- Go `==` on two floats given by their bit patterns. -/
def floatEq (a b : Nat) : Bool :=
  !floatIsNaN a && !floatIsNaN b && (a == b || (a % 2 ^ 63 == 0 && b % 2 ^ 63 == 0))

/-- Go `==` between a key `a` already in the map and the key `b` that `set`
has just built.  A pointer key comes from a fresh `reflect.New`, so it equals
no key already there. -/
def keyEq : Value → Value → Bool
  | .bool a, .bool b => a == b
  | .int a, .int b => a == b
  | .uint a, .uint b => a == b
  | .float a, .float b => floatEq a b
  | .str a, .str b => a == b
  | _, _ => false

/-- The call `m.SetMapIndex(k, v)`, which is `m[k] = v`: the entry of an equal
key gets the new value and the new key, otherwise the entry is added.  The
runtime stores the key again for the kinds whose equal keys can differ, which
among the keys `set` builds are the floats (`+0` and `-0`); for the other
kinds equal keys are the same value. -/
def mapAssign : List (Value × Value) → Value → Value → List (Value × Value)
  | [], k, v => [(k, v)]
  | (k', v') :: rest, k, v =>
    if keyEq k' k then (k, v) :: rest else (k', v') :: mapAssign rest k v

/-- The loop over `vals` in the slice case of `set`: every element starts as
the zero value and is set from its part; the first error ends the loop. -/
def setEach (setElem : Str → Option Err × Value) : List Str → Except Err (List Value)
  | [] => .ok []
  | v :: vals =>
    match setElem v with
    | (some err, _) => .error err
    | (none, x) =>
      match setEach setElem vals with
      | .error err => .error err
      | .ok xs => .ok (x :: xs)

/-- The loop over `pairs` in the map case of `set`, with `m` the map built so
far. -/
def setPairs (setKey setElem : Str → Option Err × Value) :
    List (Value × Value) → List Str → Except Err (List (Value × Value))
  | m, [] => .ok m
  | m, pair :: pairs =>
    match split ':' pair with
    | [a, b] =>
      match setKey a with
      | (some err, _) => .error err
      | (none, k) =>
        match setElem b with
        | (some err, _) => .error err
        | (none, v) => setPairs setKey setElem (mapAssign m k v) pairs
    | _ => .error (.mapItem pair)

/-- The conversion `[]byte(val)`: the UTF-8 bytes of the text. -/
def bytesOf (val : Str) : List Value :=
  (val.flatMap String.utf8EncodeChar).map (fun b => Value.uint b.toNat)

/-- Go `set`: updates a field of type `t` holding `f` with the value written
in `val`.  The result is the error returned (`none` for `nil`) and what the
field holds afterwards. -/
def set (L : Lib) : Ty → Value → Str → Option Err × Value
  | .ptr e, f, val =>
    match set L e (zero e) val with
    | (some err, _) => (some err, f)
    | (none, p) => (none, .ptr p)
  | .string, _, val => (none, .str val)
  | .bool, f, val =>
    match parseBool val with
    | .error err => (some err, f)
    | .ok v => (none, .bool v)
  | .int k, f, val =>
    match atoi val with
    | .error err => (some err, f)
    | .ok v => (none, .int (wrapInt k.bits v))
  | .map k e, f, val =>
    if (trimSpace val).length ≠ 0 then
      match setPairs (set L k (zero k)) (set L e (zero e)) [] (split ',' val) with
      | .error err => (some err, f)
      | .ok m => (none, .map m)
    else (none, .map [])
  | .float32, f, val =>
    match L.parseFloat val 32 with
    | .error e => (some (.num "ParseFloat" val e), f)
    | .ok v => (none, .float v)
  | .float64, f, val =>
    match L.parseFloat val 64 with
    | .error e => (some (.num "ParseFloat" val e), f)
    | .ok v => (none, .float v)
  | .slice e, f, val =>
    if e = .uint .uint8 then (none, .slice (bytesOf val))
    else if (trimSpace val).length ≠ 0 then
      match setEach (set L e (zero e)) (split ',' val) with
      | .error err => (some err, f)
      | .ok s => (none, .slice s)
    else (none, .slice [])
  | _, f, _ => (some .unsupported, f)

/-! ## The field walk -/

/-- The environment: the variables that are defined, with their values. -/
abbrev Env := Str → Option Str

/-- Go `os.Getenv`: the value of the variable, empty when it is not defined. -/
def getenv (env : Env) (key : Str) : Str := (env key).getD []

/-- What `Unmarshal` reads of a `reflect.StructField`. -/
structure FieldInfo where
  /-- The field `Name`. -/
  name : Str
  /-- The value of the key `default` in the struct tag, when the tag has it. -/
  tag : Option Str
  /-- Whether the field is exported; through `reflect` this decides both
  `CanSet` and `CanInterface` of its address. -/
  exported : Bool
  deriving DecidableEq

/-- The call `tf.Tag.Get(tagName)`: empty when the tag has no such key. -/
def FieldInfo.tagVal (tf : FieldInfo) : Str := tf.tag.getD []

/-- The content of a struct field: a field of struct kind with its own fields
(always a `struct` slot), or a field of another kind, with its type `t` and its
value. -/
inductive Slot where
  | leaf (t : Ty) (v : Value)
  | struct (fs : List (FieldInfo × Slot))

mutual
/-- One round of the loop of `Unmarshal`, for the field `tf` holding `vf` in a
call with the given prefix: the error that ends the call, if any, and the
field afterwards. -/
def unmarshalField (L : Lib) (env : Env) (pre : Str) (tf : FieldInfo) :
    Slot → Option Err × Slot
  | .struct fs =>
    if !tf.exported then (none, .struct fs)
    else
      match unmarshalFields L env (toEnvVarName L tf.name pre) fs with
      | (some err, fs') => (some err, .struct fs')
      | (none, fs') =>
        if tf.tagVal = [] then (none, .struct fs')
        else if !tf.exported then (some .unexported, .struct fs')
        else (some .unsupported, .struct fs')
  | .leaf t v =>
    if tf.tagVal = [] then (none, .leaf t v)
    else if !tf.exported then (some .unexported, .leaf t v)
    else
      let val := getenv env (toEnvVarName L tf.name pre)
      let val := if val = [] then tf.tagVal else val
      match set L t v val with
      | (r, v') => (r, .leaf t v')
termination_by structural s => s
/-- The loop of `Unmarshal` over the fields of a struct, in declaration
order, ending at the first error. -/
def unmarshalFields (L : Lib) (env : Env) (pre : Str) :
    List (FieldInfo × Slot) → Option Err × List (FieldInfo × Slot)
  | [] => (none, [])
  | (tf, vf) :: rest =>
    match unmarshalField L env pre tf vf with
    | (some err, vf') => (some err, (tf, vf') :: rest)
    | (none, vf') =>
      match unmarshalFields L env pre rest with
      | (r, rest') => (r, (tf, vf') :: rest')
termination_by structural fs => fs
end

/-- What the caller passes as `cfg`. -/
inductive Target where
  /-- A value that is no pointer (also the `nil` interface). -/
  | nonPtr
  /-- A nil pointer. -/
  | nilPtr
  /-- A pointer to a value. -/
  | ptr (s : Slot)

/-- Go `Unmarshal`: the error returned and the target afterwards.  The
recursive call on a struct field passes the address of that field, a non-nil
pointer to a struct, so it goes straight to the loop `unmarshalFields`. -/
def Unmarshal (L : Lib) (env : Env) (cfg : Target) (pre : Str) : Option Err × Target :=
  match cfg with
  | .ptr (.struct fs) =>
    match unmarshalFields L env pre fs with
    | (r, fs') => (r, .ptr (.struct fs'))
  | other => (some .invalidValue, other)

/-! ## Definitions used to state the theorems -/

/-- The text `Unmarshal` converts for a field with the non-empty default `d`
according to the specification: the value of the variable `name` when it is
defined and not empty, the default otherwise. -/
def rawFor (env : Env) (name d : Str) : Str :=
  match env name with
  | some x => if x = [] then d else x
  | none => d

/-- The upper-snake-case form `U(f)` of a field identifier. -/
def upperSnake (L : Lib) (f : Str) : Str := toUpper L (snake f)

/-- The variable name of the specification for a path of field identifiers
`f1, ..., fn` under the prefix `p`: `p_U(f1)_..._U(fn)`, the prefix verbatim. -/
def envVarOfPath (L : Lib) (p : Str) : List Str → Str
  | [] => p
  | f :: fs => envVarOfPath L (p ++ '_' :: upperSnake L f) fs

/-- The field at the end of a path of field positions, with the identifiers
of the fields passed on the way; every field before the last is an exported
field of struct kind, which is where the walk descends. -/
def fieldAt : List (FieldInfo × Slot) → List Nat → Option (List Str × FieldInfo × Slot)
  | _, [] => none
  | fs, [i] =>
    match fs[i]? with
    | some (tf, s) => some ([tf.name], tf, s)
    | none => none
  | fs, i :: j :: path =>
    match fs[i]? with
    | some (tf, .struct gs) =>
      if tf.exported then
        match fieldAt gs (j :: path) with
        | some (names, r) => some (tf.name :: names, r)
        | none => none
      else none
    | _ => none

/-- The number denoted by the digits read so far, of value `n`, followed by
the digits `ds`. -/
def decFrom (n : Nat) (ds : Str) : Nat := ds.foldl (fun a c => a * 10 + digitVal c) n

/-- The number a text of decimal digits denotes. -/
def decValue (ds : Str) : Nat := ds.foldl (fun a c => a * 10 + digitVal c) 0

/-- A text of decimal digits: not empty, digits only. -/
def digitsOK (ds : Str) : Bool := !ds.isEmpty && ds.all isDigit09

/-- The value of a base-10 signed integer literal, an optional sign before
decimal digits; `none` for any other text. -/
def intOfText : Str → Option Int
  | [] => none
  | c :: cs =>
    if c = '-' then (if digitsOK cs then some (-(decValue cs : Int)) else none)
    else if c = '+' then (if digitsOK cs then some (decValue cs : Int) else none)
    else if digitsOK (c :: cs) then some (decValue (c :: cs) : Int) else none

/-- Go `strconv.Itoa`: the base-10 text of an integer. -/
def itoa (x : Int) : Str :=
  if x < 0 then '-' :: Nat.toDigits 10 x.natAbs else Nat.toDigits 10 x.natAbs

/-- Go `strconv.FormatBool`. -/
def formatBool (b : Bool) : Str := if b then "true".toList else "false".toList

/-- The texts `strconv.ParseBool` accepts. -/
def boolLiterals : List Str :=
  ["1".toList, "t".toList, "T".toList, "true".toList, "TRUE".toList, "True".toList,
   "0".toList, "f".toList, "F".toList, "false".toList, "FALSE".toList, "False".toList]

/-- Go `m[k]`: the value of the entry whose key equals `k`, if there is
one. -/
def mapIndex : List (Value × Value) → Value → Option Value
  | [], _ => none
  | (k', v') :: rest, k => if keyEq k' k then some v' else mapIndex rest k

/-- The converted key and value of a pair `a:b`, each built by `set` from the
zero value of its type. -/
def convPair (L : Lib) (K V : Ty) (pair : Str) : Value × Value :=
  match split ':' pair with
  | [a, b] => ((set L K (zero K) a).2, (set L V (zero V) b).2)
  | _ => (zero K, zero V)

/-- A pair splits on the colon into exactly two segments that convert to the
key type and the value type. -/
def PairOK (L : Lib) (K V : Ty) (pair : Str) : Prop :=
  ∃ a b, split ':' pair = [a, b] ∧ (set L K (zero K) a).1 = none ∧
    (set L V (zero V) b).1 = none

/-- The value of the last pair of a list whose key equals `k`. -/
def lastCarrying (k : Value) : List (Value × Value) → Option Value
  | [] => none
  | p :: rest =>
    match lastCarrying k rest with
    | some v => some v
    | none => if keyEq p.1 k then some p.2 else none

/-- All pairs assigned in order to the map `m`. -/
def assignAll (m : List (Value × Value)) (ps : List (Value × Value)) : List (Value × Value) :=
  ps.foldl (fun acc kv => mapAssign acc kv.1 kv.2) m

/-- How a map `m` stands to the pairs `ps` assigned to it so far, in order:
every entry is the last pair that carries its key, no two entries have equal
keys, every key of the map is the key of a pair, and the
key of every pair is in the map. -/
def MapInv (m ps : List (Value × Value)) : Prop :=
  (∀ e ∈ m, ∃ before after, ps = before ++ e :: after ∧
    ∀ q ∈ after, keyEq e.1 q.1 = false) ∧
  (m.map Prod.fst).Pairwise (fun a b => keyEq a b = false) ∧
  (∀ e ∈ m, e.1 ∈ ps.map Prod.fst) ∧
  (∀ p ∈ ps, ∃ e ∈ m, e.1 = p.1 ∨ keyEq e.1 p.1 = true)

/-- An exported field with a default. -/
def field (name : String) (dflt : String) (t : Ty) (v : Value) : FieldInfo × Slot :=
  ({ name := name.toList, tag := some dflt.toList, exported := true }, .leaf t v)

/-- An exported field of struct kind without a default. -/
def nested (name : String) (fs : List (FieldInfo × Slot)) : FieldInfo × Slot :=
  ({ name := name.toList, tag := none, exported := true }, .struct fs)

/-- The nested part of the record of `TestConfig`. -/
def testNested : List (FieldInfo × Slot) :=
  [ field "ApiPort" "8080" (.int .int) (.int 0),
    nested "Nested"
      [ field "Egg" "chicken" .string (.str []),
        nested "Level2"
          [ field "Count" "3" (.int .int) (.int 0),
            field "Name" "pidgeon" .string (.str []) ] ] ]

/-- The variables `TestConfig` sets for `testNested`. -/
def testEnv : Env := fun k =>
  if k = "MYAPP_API_PORT".toList then some "9090".toList
  else if k = "MYAPP_NESTED_EGG".toList then some "iguana".toList
  else if k = "MYAPP_NESTED_LEVEL2_COUNT".toList then some "5".toList
  else none

/-- The record `testNested` after `Unmarshal` under `testEnv`. -/
def testNestedAfter : List (FieldInfo × Slot) :=
  [ field "ApiPort" "8080" (.int .int) (.int 9090),
    nested "Nested"
      [ field "Egg" "chicken" .string (.str "iguana".toList),
        nested "Level2"
          [ field "Count" "3" (.int .int) (.int 5),
            field "Name" "pidgeon" .string (.str "pidgeon".toList) ] ] ]

/-- The record of the doc comment of `Unmarshal`: the fields `apiPort int`
with the default `8080` and `srvShortName string` with the default `local`,
both with a lower-case first letter, so not exported. -/
def docCfg : List (FieldInfo × Slot) :=
  [ ({ name := "apiPort".toList, tag := some "8080".toList, exported := false },
      .leaf (.int .int) (.int 0)),
    ({ name := "srvShortName".toList, tag := some "local".toList, exported := false },
      .leaf .string (.str [])) ]

/-- The field at the end of a path of field positions, through fields of
struct kind, exported or not. -/
def slotAt : List (FieldInfo × Slot) → List Nat → Option (FieldInfo × Slot)
  | _, [] => none
  | fs, [i] => fs[i]?
  | fs, i :: j :: path =>
    match fs[i]? with
    | some (_, .struct gs) => slotAt gs (j :: path)
    | _ => none

/-- No field before position `i` fails: the loop of `Unmarshal` reaches the
field at `i`. -/
def NoEarlierFailure (L : Lib) (env : Env) (pre : Str) (fs : List (FieldInfo × Slot))
    (i : Nat) : Prop :=
  ∀ j tf vf, j < i → fs[j]? = some (tf, vf) → (unmarshalField L env pre tf vf).1 = none

/-- An exported field without a default. -/
def plain (name : String) (t : Ty) (v : Value) : FieldInfo × Slot :=
  ({ name := name.toList, tag := none, exported := true }, .leaf t v)

/-- The fields `Enabled` and `Disabled` of the record of `TestConfig`. -/
def testFlags : List (FieldInfo × Slot) :=
  [ field "Enabled" "true" .bool (.bool false),
    plain "Disabled" .bool (.bool false) ]

/-- The variable `TestConfig` sets for `Disabled`. -/
def testFlagsEnv : Env := fun k =>
  if k = "MYAPP_DISABLED".toList then some "true".toList else none

/-- A record with a field of struct kind that is not exported, `nest Nest`,
whose own field `Egg string` has the default `chicken`. -/
def hiddenNest : List (FieldInfo × Slot) :=
  [ ({ name := "nest".toList, tag := none, exported := false },
      .struct [field "Egg" "chicken" .string (.str [])]) ]

/-- The record `hiddenNest` with a default on the field of struct kind. -/
def hiddenNestTagged : List (FieldInfo × Slot) :=
  [ ({ name := "nest".toList, tag := some "x".toList, exported := false },
      .struct [field "Egg" "chicken" .string (.str [])]) ]

/-- A record with an exported field of struct kind that carries a default,
`Nest Nest`, whose own field `Egg string` has the default `chicken`. -/
def taggedNest : List (FieldInfo × Slot) :=
  [ ({ name := "Nest".toList, tag := some "x".toList, exported := true },
      .struct [field "Egg" "chicken" .string (.str [])]) ]

/-- A record with a field that is not exported and has the empty default. -/
def emptyDefault : List (FieldInfo × Slot) :=
  [ ({ name := "port".toList, tag := some [], exported := false },
      .leaf (.uint .uint16) (.uint 80)) ]

/-- The fields before position `k` were processed: the round of each returned
no error and the field holds what the round left; in particular a field with a
non-empty default that is not of struct kind holds its newly converted
value. -/
def ProcessedBefore (L : Lib) (env : Env) (pre : Str) (fs fs' : List (FieldInfo × Slot))
    (k : Nat) : Prop :=
  ∀ j tf vf, j < k → fs[j]? = some (tf, vf) →
    (unmarshalField L env pre tf vf).1 = none ∧
    fs'[j]? = some (tf, (unmarshalField L env pre tf vf).2) ∧
    ∀ t v d, vf = .leaf t v → tf.tag = some d → d ≠ [] →
      (set L t v (rawFor env (toEnvVarName L tf.name pre) d)).1 = none ∧
      fs'[j]? = some (tf, .leaf t (set L t v (rawFor env (toEnvVarName L tf.name pre) d)).2)

/-- The fields after position `k` hold what they held before the call. -/
def UntouchedAfter (fs fs' : List (FieldInfo × Slot)) (k : Nat) : Prop :=
  ∀ j, k < j → fs'[j]? = fs[j]?

/-- The call with the given prefix on the fields `fs` fails with `err` at the
field at the end of `path`, the first failing field of the depth-first walk in
declaration order, and leaves `fs'`.  At every struct on the path the fields
before the one the path takes were processed and the fields after it are
untouched.  The field at the end of the path is a field that is not of struct
kind, whose round failed and left it as it was, or an exported field of struct
kind with a non-empty default, whose nested loop ran without error before the
field itself was refused as unsupported. -/
def FirstFailure (L : Lib) (env : Env) :
    List Nat → Str → List (FieldInfo × Slot) → Err → List (FieldInfo × Slot) → Prop
  | [], _, _, _, _ => False
  | [k], pre, fs, err, fs' =>
    ProcessedBefore L env pre fs fs' k ∧ UntouchedAfter fs fs' k ∧
    ∃ tf vf, fs[k]? = some (tf, vf) ∧ (unmarshalField L env pre tf vf).1 = some err ∧
      ((∃ t v, vf = .leaf t v ∧ fs'[k]? = some (tf, .leaf t v)) ∨
       (∃ gs gs', vf = .struct gs ∧ tf.exported = true ∧
          unmarshalFields L env (toEnvVarName L tf.name pre) gs = (none, gs') ∧
          err = .unsupported ∧ fs'[k]? = some (tf, .struct gs')))
  | k :: j :: path, pre, fs, err, fs' =>
    ProcessedBefore L env pre fs fs' k ∧ UntouchedAfter fs fs' k ∧
    ∃ tf gs gs', fs[k]? = some (tf, .struct gs) ∧ tf.exported = true ∧
      fs'[k]? = some (tf, .struct gs') ∧
      FirstFailure L env (j :: path) (toEnvVarName L tf.name pre) gs err gs'

/-- A record whose second field fails to convert, between a field that
converts and a field that is never reached. -/
def failingRecord : List (FieldInfo × Slot) :=
  [ field "First" "1" (.int .int) (.int 0),
    nested "Nest"
      [ field "Ok" "yes" .string (.str []),
        field "Bad" "oops" (.int .int) (.int 7),
        field "Late" "never" .string (.str []) ],
    field "Last" "9" (.int .int) (.int 0) ]

/-- The record `failingRecord` after `Unmarshal` with no variable defined. -/
def failingRecordAfter : List (FieldInfo × Slot) :=
  [ field "First" "1" (.int .int) (.int 1),
    nested "Nest"
      [ field "Ok" "yes" .string (.str "yes".toList),
        field "Bad" "oops" (.int .int) (.int 7),
        field "Late" "never" .string (.str []) ],
    field "Last" "9" (.int .int) (.int 0) ]

/-- A library instance whose `ParseFloat` knows only the two zeros: `0` is
the bit pattern `0`, `-0` the bit pattern with the sign bit alone. -/
def signedZeroLib : Lib :=
  { upperRune := fun c => c,
    parseFloat := fun s _ =>
      if s = "0".toList then .ok 0
      else if s = "-0".toList then .ok (2 ^ 63)
      else .error .syntaxErr }

/-- A library instance for texts whose non-ASCII code points have no case
and for records without float fields. -/
def asciiLib : Lib := { upperRune := fun c => c, parseFloat := fun _ _ => .error .syntaxErr }



/-! ## Facts about the name derivation -/

theorem not_upper_of_lower {c : Char} (h : isLowerAZ c = true) : isUpperAZ c = false := by
  simp only [isLowerAZ, isUpperAZ, Bool.and_eq_true, decide_eq_true_eq] at *
  simp only [Bool.and_eq_false_iff, decide_eq_false_iff_not]
  omega

theorem not_lowerOrDigit_of_upper {c : Char} (h : isUpperAZ c = true) :
    isLowerOrDigit c = false := by
  simp only [isLowerAZ, isUpperAZ, isLowerOrDigit, isDigit09, Bool.and_eq_true,
    decide_eq_true_eq] at *
  simp only [Bool.or_eq_false_iff, Bool.and_eq_false_iff, decide_eq_false_iff_not]
  omega

theorem isDot_of_isAlnum {c : Char} (h : isAlnum c = true) : isDot c = true := by
  simp only [isDot, decide_eq_true_eq]
  rintro rfl
  revert h
  decide

/-- A code point outside `[a-z0-9]` cannot open a match of `matchAllCap`. -/
theorem replaceAllCap_cons_of_not_lowerOrDigit {c : Char} (h : isLowerOrDigit c = false)
    (t : Str) : replaceAllCap (c :: t) = c :: replaceAllCap t := by
  cases t with
  | nil => simp [replaceAllCap]
  | cons x t => simp [replaceAllCap, h]

/-- The second replacement, read one position at a time. -/
theorem replaceAllCap_cons_cons (c x : Char) (t : Str) :
    replaceAllCap (c :: x :: t) =
      if isLowerOrDigit c && isUpperAZ x then c :: '_' :: replaceAllCap (x :: t)
      else c :: replaceAllCap (x :: t) := by
  by_cases h : (isLowerOrDigit c && isUpperAZ x) = true
  · have hx : isUpperAZ x = true := by simp_all
    rw [replaceAllCap_cons_of_not_lowerOrDigit (not_lowerOrDigit_of_upper hx)]
    simp [replaceAllCap, h]
  · simp [replaceAllCap, h]

/-- The first replacement never changes the first code point. -/
theorem replaceFirstCap_head (b : Bool) (x : Char) (r : Str) :
    ∃ t, replaceFirstCap b (x :: r) = x :: t := by
  match r with
  | [] => exact ⟨[], by simp [replaceFirstCap]⟩
  | [y] => exact ⟨[y], by simp [replaceFirstCap]⟩
  | u :: l :: rest =>
    simp only [replaceFirstCap]
    split_ifs <;> exact ⟨_, rfl⟩

theorem replaceAllCap_cons_replaceFirstCap (c : Char) (b : Bool) (x : Char) (r : Str) :
    replaceAllCap (c :: replaceFirstCap b (x :: r)) =
      if isLowerOrDigit c && isUpperAZ x
      then c :: '_' :: replaceAllCap (replaceFirstCap b (x :: r))
      else c :: replaceAllCap (replaceFirstCap b (x :: r)) := by
  obtain ⟨t, ht⟩ := replaceFirstCap_head b x r
  rw [ht, replaceAllCap_cons_cons]

/-- Both replacements together insert exactly the underscores of the
specification, whatever the state the first scan starts in. -/
theorem replaceAllCap_replaceFirstCap (n : Nat) :
    ∀ (s : Str), s.length ≤ n → (∀ c ∈ s, isDot c = true) → ∀ b : Bool,
      replaceAllCap (replaceFirstCap b s) = specSnake s := by
  induction n with
  | zero =>
    intro s hs _ b
    have : s = [] := List.length_eq_zero.mp (Nat.le_zero.mp hs)
    subst this
    simp [replaceFirstCap, replaceAllCap, specSnake]
  | succ n ih =>
    intro s hs hdot b
    match s, hs, hdot with
    | [], _, _ => simp [replaceFirstCap, replaceAllCap, specSnake]
    | [c], _, _ => simp [replaceFirstCap, replaceAllCap, specSnake, specBoundary]
    | [c, d], _, _ =>
      by_cases h : (isLowerOrDigit c && isUpperAZ d) = true
      · have h1 : isLowerOrDigit c = true := by simp_all
        have h2 : isUpperAZ d = true := by simp_all
        simp [replaceFirstCap, replaceAllCap, specSnake, specBoundary, h1, h2]
      · have h' : (isUpperAZ d && isLowerOrDigit c) = false := by
          rw [Bool.and_comm]; simpa using h
        simp [replaceFirstCap, replaceAllCap, specSnake, specBoundary, h, h']
    | c :: u :: l :: rest, hs, hdot =>
      have hc : isDot c = true := hdot c (by simp)
      have hlen1 : (u :: l :: rest).length ≤ n := by simp at hs ⊢; omega
      have hlen2 : (l :: rest).length ≤ n := by simp at hs ⊢; omega
      have hdot1 : ∀ x ∈ u :: l :: rest, isDot x = true :=
        fun x hx => hdot x (List.mem_cons_of_mem _ hx)
      have hdot2 : ∀ x ∈ l :: rest, isDot x = true :=
        fun x hx => hdot1 x (List.mem_cons_of_mem _ hx)
      simp only [replaceFirstCap]
      by_cases h1 : (b && isLowerAZ c) = true
      · have hlc : isLowerOrDigit c = true := by
          simp only [Bool.and_eq_true] at h1
          simp [isLowerOrDigit, h1.2]
        rw [if_pos h1, replaceAllCap_cons_replaceFirstCap, ih _ hlen1 hdot1]
        simp [specSnake, specBoundary, hlc]
      · rw [if_neg h1]
        by_cases h2 : (isDot c && isUpperAZ u && isLowerAZ l) = true
        · have hu : isUpperAZ u = true := by simp_all
          have hl : isLowerAZ l = true := by simp_all
          have hl' : isUpperAZ l = false := not_upper_of_lower hl
          rw [if_pos h2]
          rw [replaceAllCap_cons_cons, replaceAllCap_cons_cons]
          have e1 : isUpperAZ '_' = false := by decide
          have e2 : isLowerOrDigit '_' = false := by decide
          rw [replaceAllCap_cons_of_not_lowerOrDigit (not_lowerOrDigit_of_upper hu),
            ih _ hlen2 hdot2]
          simp [e1, e2, specSnake, specBoundary, hu, hl, hl']
        · rw [if_neg h2, replaceAllCap_cons_replaceFirstCap, ih _ hlen1 hdot1]
          have h3 : (isUpperAZ u && isLowerAZ l) = false := by
            simpa [hc] using h2
          by_cases hu : isUpperAZ u = true
          · have hl : isLowerAZ l = false := by simpa [hu] using h3
            simp [specSnake, specBoundary, hu, hl]
          · have hu' : isUpperAZ u = false := by simpa using hu
            simp [specSnake, specBoundary, hu']

/-- C3. For an identifier `s` of ASCII letters and digits and any prefix `p`,
`toEnvVarName s p` is `p`, an underscore and the upper-cased text `s'`, where
`s'` is `s` with one underscore between `s[i]` and `s[i+1]` exactly at the
boundaries (a) and (b) of the specification and no other change; in particular
`APIPort` and `apiPort` both give `_API_PORT`. -/
theorem toEnvVarName_eq_spec (L : Lib) (s p : Str) (h : ∀ c ∈ s, isAlnum c = true) :
    toEnvVarName L s p = p ++ '_' :: toUpper L (specSnake s) ∧
    toEnvVarName L "APIPort".toList [] = "_API_PORT".toList ∧
    toEnvVarName L "apiPort".toList [] = "_API_PORT".toList := by
  refine ⟨?_, ?_, ?_⟩
  · simp only [toEnvVarName, snake]
    rw [replaceAllCap_replaceFirstCap s.length s (Nat.le_refl _)
      (fun c hc => isDot_of_isAlnum (h c hc)) false]
    simp
  · rfl
  · rfl

theorem toEnvVarName_eq_spec_witness :
    (∀ c ∈ "srvShortName".toList, isAlnum c = true) ∧
    toEnvVarName asciiLib "srvShortName".toList "MYAPP".toList =
      "MYAPP_SRV_SHORT_NAME".toList := by
  refine ⟨by decide, ?_⟩
  rw [(toEnvVarName_eq_spec asciiLib "srvShortName".toList "MYAPP".toList (by decide)).1]
  decide


/-! ## Facts about the field walk -/

theorem getenv_or_default (env : Env) (name d : Str) :
    (if getenv env name = [] then d else getenv env name) = rawFor env name d := by
  unfold getenv rawFor
  cases h : env name with
  | none => simp
  | some x => by_cases hx : x = [] <;> simp [hx]

/-- A loop that ends without error has run `unmarshalField` on every field. -/
theorem unmarshalFields_ok (L : Lib) (env : Env) (pre : Str) :
    ∀ (fs fs' : List (FieldInfo × Slot)), unmarshalFields L env pre fs = (none, fs') →
      ∀ (i : Nat) (tf : FieldInfo) (vf : Slot), fs[i]? = some (tf, vf) →
        (unmarshalField L env pre tf vf).1 = none ∧
        fs'[i]? = some (tf, (unmarshalField L env pre tf vf).2) := by
  intro fs
  induction fs with
  | nil => intro fs' _ i tf vf hi; simp at hi
  | cons x rest ih =>
    intro fs' h i tf vf hi
    obtain ⟨tf0, vf0⟩ := x
    rw [unmarshalFields] at h
    rcases h1 : unmarshalField L env pre tf0 vf0 with ⟨r1, vf1⟩
    rw [h1] at h
    cases r1 with
    | some err => simp at h
    | none =>
      rcases h2 : unmarshalFields L env pre rest with ⟨r2, rest2⟩
      rw [h2] at h
      simp only [Prod.mk.injEq] at h
      obtain ⟨hr, hfs⟩ := h
      subst hr
      subst hfs
      cases i with
      | zero =>
        simp only [List.getElem?_cons_zero, Option.some.injEq, Prod.mk.injEq] at hi
        obtain ⟨rfl, rfl⟩ := hi
        simp [h1]
      | succ j =>
        simp only [List.getElem?_cons_succ] at hi ⊢
        exact ih rest2 h2 j tf vf hi

/-- A loop that ends without error has set a settable field with a non-empty
default from the text `rawFor` picks. -/
theorem Unmarshal_step_leaf (L : Lib) (env : Env) (pre : Str)
    (fs fs' : List (FieldInfo × Slot)) (i : Nat) (tf : FieldInfo) (t : Ty) (v : Value) (d : Str)
    (hfield : fs[i]? = some (tf, Slot.leaf t v))
    (htag : tf.tag = some d) (hd : d ≠ []) (hexp : tf.exported = true)
    (hloop : unmarshalFields L env pre fs = (none, fs')) :
    (set L t v (rawFor env (toEnvVarName L tf.name pre) d)).1 = none ∧
    fs'[i]? = some (tf, Slot.leaf t (set L t v (rawFor env (toEnvVarName L tf.name pre) d)).2) := by
  obtain ⟨h1, h2⟩ := unmarshalFields_ok L env pre fs fs' hloop i tf _ hfield
  have hstep : unmarshalField L env pre tf (.leaf t v) =
      ((set L t v (rawFor env (toEnvVarName L tf.name pre) d)).1,
        .leaf t (set L t v (rawFor env (toEnvVarName L tf.name pre) d)).2) := by
    rw [unmarshalField]
    have htv : tf.tagVal = d := by simp [FieldInfo.tagVal, htag]
    simp only [htv, hd, hexp, if_false, Bool.not_true, Bool.false_eq_true]
    rw [getenv_or_default]
  rw [hstep] at h1 h2
  exact ⟨h1, h2⟩

/-- A call of `Unmarshal` on a pointer to a struct that returns no error is a
loop over its fields that ends without error. -/
theorem Unmarshal_ok_loop (L : Lib) (env : Env) (pre : Str)
    (fs fs' : List (FieldInfo × Slot))
    (hok : Unmarshal L env (.ptr (.struct fs)) pre = (none, .ptr (.struct fs'))) :
    unmarshalFields L env pre fs = (none, fs') := by
  simp only [Unmarshal] at hok
  rcases h : unmarshalFields L env pre fs with ⟨r, gs⟩
  rw [h] at hok
  simp only [Prod.mk.injEq, Target.ptr.injEq, Slot.struct.injEq] at hok
  rw [hok.1, hok.2]

/-- C1. For every environment, prefix and settable field (of a record that
`Unmarshal` populates without error) that carries a non-empty default `d`, the
field is assigned the conversion of `v`, where `v` is the value of the
variable with the field's derived name when that value is non-empty, and `d`
when the variable is absent or empty. -/
theorem Unmarshal_assigns_env_or_default (L : Lib) (env : Env) (pre : Str)
    (fs fs' : List (FieldInfo × Slot)) (i : Nat) (tf : FieldInfo) (t : Ty) (v : Value) (d : Str)
    (hfield : fs[i]? = some (tf, Slot.leaf t v))
    (htag : tf.tag = some d) (hd : d ≠ []) (hexp : tf.exported = true)
    (hok : Unmarshal L env (.ptr (.struct fs)) pre = (none, .ptr (.struct fs'))) :
    (set L t v (rawFor env (toEnvVarName L tf.name pre) d)).1 = none ∧
    fs'[i]? = some (tf, Slot.leaf t (set L t v (rawFor env (toEnvVarName L tf.name pre) d)).2) ∧
    (∀ x, env (toEnvVarName L tf.name pre) = some x → x ≠ [] →
      rawFor env (toEnvVarName L tf.name pre) d = x) ∧
    (env (toEnvVarName L tf.name pre) = none ∨ env (toEnvVarName L tf.name pre) = some [] →
      rawFor env (toEnvVarName L tf.name pre) d = d) := by
  obtain ⟨h1, h2⟩ := Unmarshal_step_leaf L env pre fs fs' i tf t v d hfield htag hd hexp
    (Unmarshal_ok_loop L env pre fs fs' hok)
  refine ⟨h1, h2, ?_, ?_⟩
  · intro x hx hne
    simp [rawFor, hx, hne]
  · rintro (h | h) <;> simp [rawFor, h]


theorem Unmarshal_testNested :
    Unmarshal asciiLib testEnv (.ptr (.struct testNested)) "MYAPP".toList =
      (none, .ptr (.struct testNestedAfter)) := by
  rfl

theorem Unmarshal_assigns_env_or_default_witness :
    testNestedAfter[0]? = some (field "ApiPort" "8080" (.int .int) (.int 9090)) ∧
    rawFor testEnv "MYAPP_API_PORT".toList "8080".toList = "9090".toList :=
  have h := Unmarshal_assigns_env_or_default asciiLib testEnv "MYAPP".toList testNested
    testNestedAfter 0 (field "ApiPort" "8080" (.int .int) (.int 0)).1 (.int .int) (.int 0)
    "8080".toList rfl rfl (by decide) rfl Unmarshal_testNested
  ⟨rfl, h.2.2.1 "9090".toList rfl (by decide)⟩

/-- The prefix of a nested call is the name of the path so far. -/
theorem envVarOfPath_cons (L : Lib) (p f : Str) (fs : List Str) :
    envVarOfPath L p (f :: fs) = envVarOfPath L (toEnvVarName L f p) fs := by
  simp [envVarOfPath, toEnvVarName, upperSnake]

/-- The variable name of a path written out: the prefix, then an underscore
and the upper-snake-case form for every identifier. -/
theorem envVarOfPath_eq (L : Lib) (p : Str) (names : List Str) :
    envVarOfPath L p names = p ++ (names.map (fun f => '_' :: upperSnake L f)).flatten := by
  induction names generalizing p with
  | nil => simp [envVarOfPath]
  | cons f fs ih => simp [envVarOfPath, ih]

/-- What a round of the loop does on an exported field of struct kind when
it returns no error: the nested loop has run with the extended prefix. -/
theorem unmarshalField_struct_ok (L : Lib) (env : Env) (pre : Str) (tf : FieldInfo)
    (gs : List (FieldInfo × Slot)) (hexp : tf.exported = true)
    (h : (unmarshalField L env pre tf (.struct gs)).1 = none) :
    ∃ gs', unmarshalFields L env (toEnvVarName L tf.name pre) gs = (none, gs') ∧
      (unmarshalField L env pre tf (.struct gs)).2 = .struct gs' := by
  rw [unmarshalField] at h ⊢
  simp only [hexp, Bool.not_true, Bool.false_eq_true, if_false] at h ⊢
  rcases h1 : unmarshalFields L env (toEnvVarName L tf.name pre) gs with ⟨r, gs'⟩
  rw [h1] at h
  cases r with
  | some err => simp at h
  | none =>
    refine ⟨gs', rfl, ?_⟩
    simp only
    split_ifs <;> rfl

/-- The walk at any depth: a loop that ends without error has set the field
at the end of a path from the variable named after the whole path. -/
theorem unmarshalFields_at_path (L : Lib) (env : Env) :
    ∀ (path : List Nat) (pre : Str) (fs fs' : List (FieldInfo × Slot)) (names : List Str)
      (tf : FieldInfo) (t : Ty) (v : Value) (d : Str),
      fieldAt fs path = some (names, tf, Slot.leaf t v) →
      tf.tag = some d → d ≠ [] → tf.exported = true →
      unmarshalFields L env pre fs = (none, fs') →
      (set L t v (rawFor env (envVarOfPath L pre names) d)).1 = none ∧
      fieldAt fs' path = some (names, tf,
        Slot.leaf t (set L t v (rawFor env (envVarOfPath L pre names) d)).2) := by
  intro path
  induction path with
  | nil => intro pre fs fs' names tf t v d h; simp [fieldAt] at h
  | cons i rest ih =>
    intro pre fs fs' names tf t v d hat htag hd hexp hok
    cases rest with
    | nil =>
      simp only [fieldAt] at hat ⊢
      cases hi : fs[i]? with
      | none => simp [hi] at hat
      | some x =>
        obtain ⟨tf0, s0⟩ := x
        simp only [hi, Option.some.injEq, Prod.mk.injEq] at hat
        obtain ⟨rfl, rfl, rfl⟩ := hat
        have hU := Unmarshal_step_leaf L env pre fs fs' i tf0 t v d hi htag hd hexp hok
        have e : envVarOfPath L pre [tf0.name] = toEnvVarName L tf0.name pre := by
          rw [envVarOfPath_cons]; rfl
        rw [e]
        refine ⟨hU.1, ?_⟩
        rw [hU.2]
    | cons j path =>
      simp only [fieldAt] at hat ⊢
      cases hi : fs[i]? with
      | none => simp [hi] at hat
      | some x =>
        obtain ⟨tf0, s0⟩ := x
        cases s0 with
        | leaf t0 v0 => simp [hi] at hat
        | struct gs =>
          simp only [hi] at hat
          by_cases he : tf0.exported = true
          · simp only [he, if_true] at hat
            cases hrec : fieldAt gs (j :: path) with
            | none => simp [hrec] at hat
            | some r =>
              obtain ⟨names0, r0⟩ := r
              simp only [hrec, Option.some.injEq, Prod.mk.injEq] at hat
              obtain ⟨rfl, rfl⟩ := hat
              obtain ⟨h1, h2⟩ := unmarshalFields_ok L env pre fs fs' hok i tf0 _ hi
              obtain ⟨gs', hg, hs⟩ := unmarshalField_struct_ok L env pre tf0 gs he h1
              rw [hs] at h2
              have := ih (toEnvVarName L tf0.name pre) gs gs' names0 tf t v d hrec htag hd hexp hg
              rw [envVarOfPath_cons]
              refine ⟨this.1, ?_⟩
              simp only [h2, he, if_true, this.2]
          · simp [he] at hat


/-- C2. For every caller prefix `p` and every path of identifiers `f1, ..., fn`
leading through fields of struct kind to a settable field with a non-empty
default, a call of `Unmarshal` that returns no error has set that field from
the variable `p_U(f1)_..._U(fn)`: the prefix verbatim, then an underscore and
the upper-snake-case form of every identifier on the path.  For the prefix
`MYAPP` and the path `Nested.Level2.Count` the name is
`MYAPP_NESTED_LEVEL2_COUNT`. -/
theorem Unmarshal_consults_path_name (L : Lib) (env : Env) (p : Str)
    (fs fs' : List (FieldInfo × Slot)) (path : List Nat) (names : List Str)
    (tf : FieldInfo) (t : Ty) (v : Value) (d : Str)
    (hat : fieldAt fs path = some (names, tf, Slot.leaf t v))
    (htag : tf.tag = some d) (hd : d ≠ []) (hexp : tf.exported = true)
    (hok : Unmarshal L env (.ptr (.struct fs)) p = (none, .ptr (.struct fs'))) :
    fieldAt fs' path = some (names, tf, Slot.leaf t
      (set L t v (rawFor env (p ++ (names.map (fun f => '_' :: upperSnake L f)).flatten) d)).2) ∧
    "MYAPP".toList ++ (["Nested".toList, "Level2".toList, "Count".toList].map
      (fun f => '_' :: upperSnake L f)).flatten = "MYAPP_NESTED_LEVEL2_COUNT".toList := by
  refine ⟨?_, rfl⟩
  rw [← envVarOfPath_eq]
  exact (unmarshalFields_at_path L env path p fs fs' names tf t v d hat htag hd hexp
    (Unmarshal_ok_loop L env p fs fs' hok)).2

theorem Unmarshal_consults_path_name_witness :
    fieldAt testNestedAfter [1, 1, 0] =
      some (["Nested".toList, "Level2".toList, "Count".toList],
        (field "Count" "3" (.int .int) (.int 0)).1, Slot.leaf (.int .int) (.int 5)) :=
  (Unmarshal_consults_path_name asciiLib testEnv "MYAPP".toList testNested testNestedAfter
    [1, 1, 0] ["Nested".toList, "Level2".toList, "Count".toList]
    (field "Count" "3" (.int .int) (.int 0)).1 (.int .int) (.int 0) "3".toList
    rfl rfl (by decide) rfl Unmarshal_testNested).1


/-! ## Facts about the library functions -/

theorem dropWhile_eq_nil_of_all {p : Char → Bool} :
    ∀ (l : Str), (∀ x ∈ l.dropWhile p, p x = true) → l.dropWhile p = [] := by
  intro l
  induction l with
  | nil => intro _; rfl
  | cons a l ih =>
    intro h
    by_cases ha : p a = true
    · simp only [List.dropWhile_cons_of_pos ha] at h ⊢
      exact ih h
    · exfalso
      simp only [List.dropWhile_cons_of_neg ha] at h
      exact ha (h a (List.mem_cons_self _ _))

/-- The text is blank for `strings.TrimSpace`, that is, nothing is left of
it, exactly when it is empty or all white space. -/
theorem trimSpace_length_eq_zero_iff (s : Str) :
    (trimSpace s).length = 0 ↔ ∀ c ∈ s, isSpace c = true := by
  unfold trimSpace
  rw [List.length_eq_zero, List.reverse_eq_nil_iff, List.dropWhile_eq_nil_iff]
  constructor
  · intro h
    have h' : ∀ x ∈ s.dropWhile isSpace, isSpace x = true :=
      fun x hx => h x (List.mem_reverse.mpr hx)
    have := dropWhile_eq_nil_of_all s h'
    exact List.dropWhile_eq_nil_iff.mp this
  · intro h x hx
    have : s.dropWhile isSpace = [] := List.dropWhile_eq_nil_iff.mpr h
    rw [this] at hx
    simp at hx

theorem split_ne_nil (sep : Char) (s : Str) : split sep s ≠ [] := by
  cases s with
  | nil => simp [split]
  | cons c cs =>
    simp only [split]
    split_ifs
    · simp
    · split <;> simp

/-- Splitting gives one piece more than there are separators. -/
theorem split_length (sep : Char) (s : Str) : (split sep s).length = s.count sep + 1 := by
  induction s with
  | nil => simp [split]
  | cons c cs ih =>
    simp only [split]
    by_cases h : c = sep
    · subst h
      simp [ih]
    · rw [if_neg h, List.count_cons_of_ne (Ne.symm h)]
      cases hs : split sep cs with
      | nil => exact absurd hs (split_ne_nil sep cs)
      | cons p ps =>
        rw [hs] at ih
        simpa using ih

/-- The slice loop, when every part converts. -/
theorem setEach_ok (g : Str → Option Err × Value) :
    ∀ (parts : List Str), (∀ p ∈ parts, (g p).1 = none) →
      setEach g parts = .ok (parts.map (fun p => (g p).2)) := by
  intro parts
  induction parts with
  | nil => intro _; rfl
  | cons x xs ih =>
    intro h
    have hx : (g x).1 = none := h x (List.mem_cons_self _ _)
    have hxs := ih (fun p hp => h p (List.mem_cons_of_mem _ hp))
    rcases hg : g x with ⟨r, y⟩
    rw [hg] at hx
    simp only at hx
    subst hx
    simp [setEach, hg, hxs]

/-- The slice loop, when a part fails after parts that convert. -/
theorem setEach_error (g : Str → Option Err × Value) :
    ∀ (parts : List Str) (i : Nat) (q : Str) (e : Err),
      (∀ j p, j < i → parts[j]? = some p → (g p).1 = none) →
      parts[i]? = some q → (g q).1 = some e → setEach g parts = .error e := by
  intro parts
  induction parts with
  | nil => intro i q e _ hi; simp at hi
  | cons x xs ih =>
    intro i q e hbefore hi hfail
    cases i with
    | zero =>
      simp only [List.getElem?_cons_zero, Option.some.injEq] at hi
      subst hi
      rcases hg : g x with ⟨r, y⟩
      rw [hg] at hfail
      simp only at hfail
      subst hfail
      simp [setEach, hg]
    | succ k =>
      have h0 : (g x).1 = none := hbefore 0 x (Nat.succ_pos k) (by simp)
      have hrec := ih k q e
        (fun j p hj hp => hbefore (j + 1) p (Nat.succ_lt_succ hj) (by simpa using hp))
        (by simpa using hi) hfail
      rcases hg : g x with ⟨r, y⟩
      rw [hg] at h0
      simp only at h0
      subst h0
      simp [setEach, hg, hrec]

/-- C4. For every element type `T` other than byte and every text `raw` that
is not empty or all white space, converting `raw` to a slice of `T` converts,
from left to right, the parts of `raw` between the commas, untrimmed: there
are as many parts as commas plus one; if every part converts, the result is
the slice of the converted parts in order; otherwise the conversion fails with
the error of the first part that fails, and the field keeps its value. -/
theorem set_slice_parts (L : Lib) (T : Ty) (f : Value) (raw : Str)
    (hT : T ≠ .uint .uint8) (hraw : ¬ ∀ c ∈ raw, isSpace c = true) :
    (split ',' raw).length = raw.count ',' + 1 ∧
    ((∀ p ∈ split ',' raw, (set L T (zero T) p).1 = none) →
      set L (.slice T) f raw =
        (none, .slice ((split ',' raw).map (fun p => (set L T (zero T) p).2)))) ∧
    (∀ (i : Nat) (q : Str) (e : Err),
      (∀ j p, j < i → (split ',' raw)[j]? = some p → (set L T (zero T) p).1 = none) →
      (split ',' raw)[i]? = some q → (set L T (zero T) q).1 = some e →
      set L (.slice T) f raw = (some e, f)) := by
  have hblank : (trimSpace raw).length ≠ 0 := fun h =>
    hraw ((trimSpace_length_eq_zero_iff raw).mp h)
  refine ⟨split_length ',' raw, ?_, ?_⟩
  · intro hall
    rw [set]
    simp only [hT, if_false, hblank, ne_eq, not_false_eq_true, if_true]
    rw [setEach_ok _ _ hall]
  · intro i q e hbefore hi hfail
    rw [set]
    simp only [hT, if_false, hblank, ne_eq, not_false_eq_true, if_true]
    rw [setEach_error _ _ i q e hbefore hi hfail]

theorem set_slice_parts_witness :
    set asciiLib (.slice (.int .int)) .nilSlice "0,1,1,2,3,5,8".toList =
      (none, .slice [.int 0, .int 1, .int 1, .int 2, .int 3, .int 5, .int 8]) ∧
    set asciiLib (.slice (.int .int)) .nilSlice "0,x,y".toList =
      (some (.num "Atoi" "x".toList .syntaxErr), .nilSlice) :=
  have h := set_slice_parts asciiLib (.int .int) .nilSlice "0,1,1,2,3,5,8".toList
    (by decide) (by decide)
  have h2 := set_slice_parts asciiLib (.int .int) .nilSlice "0,x,y".toList
    (by decide) (by decide)
  ⟨h.2.1 (by decide), h2.2.2 1 "x".toList (.num "Atoi" "x".toList .syntaxErr)
    (by
      intro j p hj hp
      have : j = 0 := by omega
      subst this
      have hp' : p = "0".toList := by
        have : (split ',' "0,x,y".toList)[0]? = some "0".toList := by decide
        rw [this] at hp
        exact (Option.some.inj hp).symm
      subst hp'
      decide)
    (by decide) (by decide)⟩


/-- The map loop, when a pair does not split into two segments after pairs
that do and that convert. -/
theorem setPairs_malformed (sk sv : Str → Option Err × Value) :
    ∀ (pairs : List Str) (m : List (Value × Value)) (i : Nat) (q : Str),
      (∀ j p, j < i → pairs[j]? = some p →
        ∃ a b, split ':' p = [a, b] ∧ (sk a).1 = none ∧ (sv b).1 = none) →
      pairs[i]? = some q → (split ':' q).length ≠ 2 →
      setPairs sk sv m pairs = .error (.mapItem q) := by
  intro pairs
  induction pairs with
  | nil => intro m i q _ hi; simp at hi
  | cons x xs ih =>
    intro m i q hbefore hi hbad
    cases i with
    | zero =>
      simp only [List.getElem?_cons_zero, Option.some.injEq] at hi
      subst hi
      rw [setPairs]
      split
      · rename_i a b hab
        rw [hab] at hbad
        simp at hbad
      · rfl
    | succ k =>
      obtain ⟨a, b, hab, hka, hvb⟩ := hbefore 0 x (Nat.succ_pos k) (by simp)
      rcases hga : sk a with ⟨r1, kv⟩
      rcases hgb : sv b with ⟨r2, vv⟩
      rw [hga] at hka
      rw [hgb] at hvb
      simp only at hka hvb
      subst hka
      subst hvb
      rw [setPairs]
      simp only [hab, hga, hgb]
      exact ih _ k q
        (fun j p hj hp => hbefore (j + 1) p (Nat.succ_lt_succ hj) (by simpa using hp))
        (by simpa using hi) hbad

/-- C6, as the code has it.  For every map type and every text that is not
empty or all white space, if some pair between commas does not split on the
colon into exactly two segments, and every earlier pair does and converts,
the conversion fails with the error `invalid map item` that quotes the first
such pair; this error is a value of its own, not `ErrInvalidValue`, and the
field keeps its value. -/
theorem set_map_malformed_pair (L : Lib) (K V : Ty) (f : Value) (raw : Str)
    (hraw : ¬ ∀ c ∈ raw, isSpace c = true) (i : Nat) (q : Str)
    (hbefore : ∀ j p, j < i → (split ',' raw)[j]? = some p →
      ∃ a b, split ':' p = [a, b] ∧ (set L K (zero K) a).1 = none ∧
        (set L V (zero V) b).1 = none)
    (hi : (split ',' raw)[i]? = some q) (hbad : (split ':' q).length ≠ 2) :
    set L (.map K V) f raw = (some (.mapItem q), f) ∧ Err.mapItem q ≠ Err.invalidValue := by
  have hblank : (trimSpace raw).length ≠ 0 := fun h =>
    hraw ((trimSpace_length_eq_zero_iff raw).mp h)
  refine ⟨?_, by simp⟩
  rw [set]
  simp only [hblank, ne_eq, not_false_eq_true, if_true]
  rw [setPairs_malformed _ _ _ [] i q hbefore hi hbad]

theorem set_map_malformed_pair_witness :
    set asciiLib (.map .string (.int .int)) .nilMap "USA:1,Spain".toList =
      (some (.mapItem "Spain".toList), .nilMap) :=
  (set_map_malformed_pair asciiLib .string (.int .int) .nilMap "USA:1,Spain".toList
    (by decide) 1 "Spain".toList
    (by
      intro j p hj hp
      have : j = 0 := by omega
      subst this
      have hp' : p = "USA:1".toList := by
        have : (split ',' "USA:1,Spain".toList)[0]? = some "USA:1".toList := by decide
        rw [this] at hp
        exact (Option.some.inj hp).symm
      subst hp'
      exact ⟨"USA".toList, "1".toList, by decide, by decide, by decide⟩)
    (by decide) (by decide)).1

/-- C6 as stated fails: the error for a malformed pair is not
`ErrInvalidValue`. -/
theorem set_map_malformed_not_invalidValue :
    (set asciiLib (.map .string .string) .nilMap "a:1,b".toList).1 =
      some (.mapItem "b".toList) ∧
    (set asciiLib (.map .string .string) .nilMap "a:1,b".toList).1 ≠
      some Err.invalidValue := by
  decide

/-- C7. For every slice type with an element type other than byte and every
map type, whatever the element, key and value types, a text that is empty or
all white space converts without error to an empty collection that is not
nil. -/
theorem set_blank_collection (L : Lib) (f : Value) (raw : Str)
    (hraw : ∀ c ∈ raw, isSpace c = true) :
    (∀ T, T ≠ .uint .uint8 → set L (.slice T) f raw = (none, .slice [])) ∧
    (∀ K V, set L (.map K V) f raw = (none, .map [])) ∧
    Value.slice [] ≠ Value.nilSlice ∧ Value.map [] ≠ Value.nilMap := by
  have hblank : (trimSpace raw).length = 0 := (trimSpace_length_eq_zero_iff raw).mpr hraw
  refine ⟨?_, ?_, by simp, by simp⟩
  · intro T hT
    rw [set]
    simp [hT, hblank]
  · intro K V
    rw [set]
    simp [hblank]

theorem set_blank_collection_witness :
    set asciiLib (.slice .func) .nilSlice " \t ".toList = (none, .slice []) ∧
    set asciiLib (.map .interface .struct) .nilMap [] = (none, .map []) :=
  ⟨(set_blank_collection asciiLib .nilSlice " \t ".toList (by decide)).1 .func (by decide),
   (set_blank_collection asciiLib .nilMap [] (by decide)).2.1 .interface .struct⟩


/-! ## Facts about integer texts -/

theorem decFrom_ge (ds : Str) : ∀ n, n ≤ decFrom n ds := by
  induction ds with
  | nil => intro n; simp [decFrom]
  | cons c cs ih =>
    intro n
    have := ih (n * 10 + digitVal c)
    simp only [decFrom, List.foldl_cons] at this ⊢
    omega

/-- The digit loop succeeds only on digits and then returns their value. -/
theorem parseUintLoop_ok (ds : Str) : ∀ n m, parseUintLoop n ds = .ok m →
    (∀ c ∈ ds, isDigit09 c = true) ∧ m = decFrom n ds := by
  induction ds with
  | nil =>
    intro n m h
    simp only [parseUintLoop, Except.ok.injEq] at h
    simp [decFrom, h]
  | cons c cs ih =>
    intro n m h
    rw [parseUintLoop] at h
    split_ifs at h with h1 h2 h3
    have hc : isDigit09 c = true := by simpa using h1
    obtain ⟨hall, hm⟩ := ih _ _ h
    refine ⟨?_, ?_⟩
    · intro x hx
      rcases List.mem_cons.mp hx with rfl | hx
      · exact hc
      · exact hall x hx
    · simpa [decFrom] using hm

/-- The digit loop succeeds on digits whose value fits 64 bits. -/
theorem parseUintLoop_of_digits (ds : Str) : ∀ n, (∀ c ∈ ds, isDigit09 c = true) →
    decFrom n ds ≤ 2 ^ 64 - 1 → parseUintLoop n ds = .ok (decFrom n ds) := by
  induction ds with
  | nil => intro n _ _; simp [parseUintLoop, decFrom]
  | cons c cs ih =>
    intro n hall hle
    have hc : isDigit09 c = true := hall c (List.mem_cons_self _ _)
    have hstep : decFrom n (c :: cs) = decFrom (n * 10 + digitVal c) cs := by
      simp [decFrom]
    rw [hstep] at hle ⊢
    have hge := decFrom_ge cs (n * 10 + digitVal c)
    have h1 : ¬ (n ≥ (2 ^ 64 - 1) / 10 + 1) := by norm_num at hle ⊢; omega
    have h2 : ¬ (n * 10 + digitVal c > 2 ^ 64 - 1) := by norm_num at hle ⊢; omega
    rw [parseUintLoop]
    simp only [hc, Bool.not_true, Bool.false_eq_true, if_false, h1, h2]
    exact ih _ (fun x hx => hall x (List.mem_cons_of_mem _ hx)) hle

/-- The digit loop never returns a value beyond 64 bits. -/
theorem parseUintLoop_le (ds : Str) : ∀ n m, n ≤ 2 ^ 64 - 1 → parseUintLoop n ds = .ok m →
    ¬ (¬ m ≤ 2 ^ 64 - 1) := by
  induction ds with
  | nil =>
    intro n m hn h
    simp only [parseUintLoop, Except.ok.injEq] at h
    subst h
    exact not_not.mpr hn
  | cons c cs ih =>
    intro n m _ h
    rw [parseUintLoop] at h
    split_ifs at h with h1 h2 h3
    exact ih _ _ (by omega) h

theorem digitsOK_iff (ds : Str) :
    digitsOK ds = true ↔ ds ≠ [] ∧ ∀ c ∈ ds, isDigit09 c = true := by
  cases ds <;> simp [digitsOK]

theorem decFrom_zero (ds : Str) : decFrom 0 ds = decValue ds := rfl

/-- What `parseUint` accepts. -/
theorem parseUint_ok_iff (ds : Str) (m : Nat) :
    parseUint ds = .ok m ↔ digitsOK ds = true ∧ m = decValue ds ∧ m ≤ 2 ^ 64 - 1 := by
  unfold parseUint
  constructor
  · intro h
    by_cases he : ds = []
    · simp [he] at h
    · rw [if_neg he] at h
      obtain ⟨hall, hm⟩ := parseUintLoop_ok ds 0 m h
      refine ⟨(digitsOK_iff ds).mpr ⟨he, hall⟩, hm, ?_⟩
      by_contra hgt
      -- a value beyond 64 bits is never returned
      exact parseUintLoop_le ds 0 m (by norm_num) h hgt
  · rintro ⟨hok, hm, hle⟩
    obtain ⟨he, hall⟩ := (digitsOK_iff ds).mp hok
    rw [if_neg he, hm]
    exact parseUintLoop_of_digits ds 0 hall (by rw [decFrom_zero, ← hm]; exact hle)


theorem parseInt_minus (cs : Str) :
    parseInt ('-' :: cs) =
      match parseUint cs with
      | .error e => .error e
      | .ok un => if un > 2 ^ 63 then .error .rangeErr else .ok (-(un : Int)) := by
  rcases h : parseUint cs with e | un <;> simp [parseInt, h]

theorem parseInt_plus (cs : Str) :
    parseInt ('+' :: cs) =
      match parseUint cs with
      | .error e => .error e
      | .ok un => if un ≥ 2 ^ 63 then .error .rangeErr else .ok (un : Int) := by
  rcases h : parseUint cs with e | un <;> simp [parseInt, h]

theorem parseInt_unsigned (c : Char) (cs : Str) (h1 : c ≠ '-') (h2 : c ≠ '+') :
    parseInt (c :: cs) =
      match parseUint (c :: cs) with
      | .error e => .error e
      | .ok un => if un ≥ 2 ^ 63 then .error .rangeErr else .ok (un : Int) := by
  rcases h : parseUint (c :: cs) with e | un <;> simp [parseInt, h, h1, h2]

/-- The range check of `ParseInt` behind a minus sign. -/
theorem parseInt_tail_minus (ds : Str) (n : Int) :
    (match parseUint ds with
      | .error e => (.error e : Except NumErr Int)
      | .ok un => if un > 2 ^ 63 then .error .rangeErr else .ok (-(un : Int))) = .ok n ↔
    digitsOK ds = true ∧ n = -(decValue ds : Int) ∧ decValue ds ≤ 2 ^ 63 := by
  constructor
  · intro h
    rcases hp : parseUint ds with e | un
    · rw [hp] at h; simp at h
    · rw [hp] at h
      obtain ⟨hd, hun, _⟩ := (parseUint_ok_iff ds un).mp hp
      simp only at h
      split_ifs at h with hr
      simp only [Except.ok.injEq] at h
      subst hun
      exact ⟨hd, h.symm, by omega⟩
  · rintro ⟨hd, hn, hle⟩
    have hp := (parseUint_ok_iff ds (decValue ds)).mpr
      ⟨hd, rfl, by norm_num at hle ⊢; omega⟩
    rw [hp]
    simp only
    rw [if_neg (by omega), hn]

/-- The range check of `ParseInt` without a minus sign. -/
theorem parseInt_tail_plus (ds : Str) (n : Int) :
    (match parseUint ds with
      | .error e => (.error e : Except NumErr Int)
      | .ok un => if un ≥ 2 ^ 63 then .error .rangeErr else .ok (un : Int)) = .ok n ↔
    digitsOK ds = true ∧ n = (decValue ds : Int) ∧ decValue ds < 2 ^ 63 := by
  constructor
  · intro h
    rcases hp : parseUint ds with e | un
    · rw [hp] at h; simp at h
    · rw [hp] at h
      obtain ⟨hd, hun, _⟩ := (parseUint_ok_iff ds un).mp hp
      simp only at h
      split_ifs at h with hr
      simp only [Except.ok.injEq] at h
      subst hun
      exact ⟨hd, h.symm, by omega⟩
  · rintro ⟨hd, hn, hle⟩
    have hp := (parseUint_ok_iff ds (decValue ds)).mpr
      ⟨hd, rfl, by norm_num at hle ⊢; omega⟩
    rw [hp]
    simp only
    rw [if_neg (by omega), hn]

/-- What `strconv.Atoi` accepts: exactly the base-10 signed integer literals
whose value fits 64 bits, and it returns that value. -/
theorem atoi_ok_iff (s : Str) (n : Int) :
    atoi s = .ok n ↔ intOfText s = some n ∧ -(2 : Int) ^ 63 ≤ n ∧ n < 2 ^ 63 := by
  have key : atoi s = .ok n ↔ parseInt s = .ok n := by
    unfold atoi
    cases parseInt s <;> simp
  rw [key]
  cases s with
  | nil => simp [parseInt, intOfText]
  | cons c cs =>
    by_cases hm : c = '-'
    · subst hm
      rw [parseInt_minus, parseInt_tail_minus]
      simp only [intOfText, if_true]
      by_cases hd : digitsOK cs = true
      · simp only [hd, if_true, Option.some.injEq, true_and]
        constructor
        · rintro ⟨hn, hle⟩
          refine ⟨hn.symm, ?_, ?_⟩ <;> (norm_num at hle ⊢; omega)
        · rintro ⟨hn, hlo, hhi⟩
          refine ⟨hn.symm, ?_⟩
          norm_num at hlo ⊢; omega
      · simp [hd]
    · by_cases hpl : c = '+'
      · subst hpl
        rw [parseInt_plus, parseInt_tail_plus]
        simp only [intOfText, hm, if_false, if_true]
        by_cases hd : digitsOK cs = true
        · simp only [hd, if_true, Option.some.injEq, true_and]
          constructor
          · rintro ⟨hn, hle⟩
            refine ⟨hn.symm, ?_, ?_⟩ <;> (norm_num at hle ⊢; omega)
          · rintro ⟨hn, hlo, hhi⟩
            refine ⟨hn.symm, ?_⟩
            norm_num at hhi ⊢; omega
        · simp [hd]
      · rw [parseInt_unsigned c cs hm hpl, parseInt_tail_plus]
        simp only [intOfText, hm, hpl, if_false]
        by_cases hd : digitsOK (c :: cs) = true
        · simp only [hd, if_true, Option.some.injEq, true_and]
          constructor
          · rintro ⟨hn, hle⟩
            refine ⟨hn.symm, ?_, ?_⟩ <;> (norm_num at hle ⊢; omega)
          · rintro ⟨hn, hlo, hhi⟩
            refine ⟨hn.symm, ?_⟩
            norm_num at hhi ⊢; omega
        · simp [hd]


theorem digitChar_isDigit (k : Nat) (hk : k < 10) :
    isDigit09 (Nat.digitChar k) = true ∧ digitVal (Nat.digitChar k) = k := by
  interval_cases k <;> exact ⟨by decide, by decide⟩

theorem toDigitsCore_decFrom : ∀ (fuel n : Nat) (acc : Str), n < fuel →
    decFrom 0 (Nat.toDigitsCore 10 fuel n acc) = decFrom n acc := by
  intro fuel
  induction fuel with
  | zero => intro n acc h; omega
  | succ fuel ih =>
    intro n acc h
    rw [Nat.toDigitsCore]
    have hd := (digitChar_isDigit (n % 10) (Nat.mod_lt _ (by norm_num))).2
    by_cases h0 : n / 10 = 0
    · rw [if_pos h0]
      have hn : n % 10 = n := by omega
      simp only [decFrom, List.foldl_cons, Nat.zero_mul, Nat.zero_add, hd]
      rw [hn]
    · rw [if_neg h0, ih (n / 10) _ (by omega)]
      have : n / 10 * 10 + n % 10 = n := by omega
      simp [decFrom, hd, this]

theorem toDigitsCore_digits : ∀ (fuel n : Nat) (acc : Str),
    (∀ c ∈ acc, isDigit09 c = true) →
    ∀ c ∈ Nat.toDigitsCore 10 fuel n acc, isDigit09 c = true := by
  intro fuel
  induction fuel with
  | zero => intro n acc h; simpa [Nat.toDigitsCore] using h
  | succ fuel ih =>
    intro n acc h
    rw [Nat.toDigitsCore]
    have hd := (digitChar_isDigit (n % 10) (Nat.mod_lt _ (by norm_num))).1
    have hacc : ∀ c ∈ Nat.digitChar (n % 10) :: acc, isDigit09 c = true := by
      intro c hc
      rcases List.mem_cons.mp hc with rfl | hc
      · exact hd
      · exact h c hc
    by_cases h0 : n / 10 = 0
    · rw [if_pos h0]; exact hacc
    · rw [if_neg h0]; exact ih _ _ hacc

theorem toDigitsCore_ne_nil_of_acc : ∀ (fuel n : Nat) (acc : Str),
    acc ≠ [] → Nat.toDigitsCore 10 fuel n acc ≠ [] := by
  intro fuel
  induction fuel with
  | zero => intro n acc h; simpa [Nat.toDigitsCore] using h
  | succ fuel ih =>
    intro n acc _
    rw [Nat.toDigitsCore]
    by_cases h0 : n / 10 = 0
    · rw [if_pos h0]; simp
    · rw [if_neg h0]; exact ih _ _ (by simp)

theorem toDigitsCore_ne_nil (fuel n : Nat) (acc : Str) (h : 0 < fuel) :
    Nat.toDigitsCore 10 fuel n acc ≠ [] := by
  cases fuel with
  | zero => omega
  | succ k =>
    rw [Nat.toDigitsCore]
    by_cases h0 : n / 10 = 0
    · rw [if_pos h0]; simp
    · rw [if_neg h0]; exact toDigitsCore_ne_nil_of_acc _ _ _ (by simp)

/-- The decimal text of a natural number is a digit text of that value. -/
theorem toDigits_spec (n : Nat) :
    digitsOK (Nat.toDigits 10 n) = true ∧ decValue (Nat.toDigits 10 n) = n := by
  unfold Nat.toDigits
  refine ⟨(digitsOK_iff _).mpr ⟨toDigitsCore_ne_nil _ _ _ (Nat.succ_pos n),
    toDigitsCore_digits _ _ _ (by simp)⟩, ?_⟩
  have := toDigitsCore_decFrom (n + 1) n [] (Nat.lt_succ_self n)
  simpa [decFrom, decValue] using this

theorem isDigit09_not_sign {c : Char} (h : isDigit09 c = true) : c ≠ '-' ∧ c ≠ '+' := by
  constructor <;> (rintro rfl; revert h; decide)

/-- The literal that `Itoa` writes denotes the integer written. -/
theorem intOfText_itoa (x : Int) : intOfText (itoa x) = some x := by
  obtain ⟨hd, hv⟩ := toDigits_spec x.natAbs
  unfold itoa
  by_cases hx : x < 0
  · rw [if_pos hx]
    simp only [intOfText, if_true, hd, hv, Option.some.injEq]
    omega
  · rw [if_neg hx]
    obtain ⟨hne, hall⟩ := (digitsOK_iff _).mp hd
    cases hds : Nat.toDigits 10 x.natAbs with
    | nil => exact absurd hds hne
    | cons c cs =>
      rw [hds] at hd hv hall
      obtain ⟨h1, h2⟩ := isDigit09_not_sign (hall c (List.mem_cons_self _ _))
      simp only [intOfText, h1, h2, if_false, hd, if_true, hv, Option.some.injEq]
      omega

theorem wrapInt_of_fits (k : IntKind) (x : Int)
    (hlo : -(2 : Int) ^ (k.bits - 1) ≤ x) (hhi : x < 2 ^ (k.bits - 1)) :
    wrapInt k.bits x = x := by
  unfold wrapInt
  cases k <;> simp only [IntKind.bits] at hlo hhi ⊢ <;> norm_num at hlo hhi ⊢ <;> omega

theorem fits_int64 (k : IntKind) (x : Int)
    (hlo : -(2 : Int) ^ (k.bits - 1) ≤ x) (hhi : x < 2 ^ (k.bits - 1)) :
    -(2 : Int) ^ 63 ≤ x ∧ x < 2 ^ 63 := by
  cases k <;> simp only [IntKind.bits] at hlo hhi <;> norm_num at hlo hhi ⊢ <;> omega

/-- C9. For the scalar types string, bool and the signed integers of every
width, converting the canonical text of a value of the type (the string
itself, `true` or `false`, the base-10 text of the integer) succeeds and
yields that value. -/
theorem set_roundtrip (L : Lib) (f : Value) :
    (∀ s : Str, set L .string f s = (none, .str s)) ∧
    (∀ b : Bool, set L .bool f (formatBool b) = (none, .bool b)) ∧
    (∀ (k : IntKind) (x : Int), -(2 : Int) ^ (k.bits - 1) ≤ x → x < 2 ^ (k.bits - 1) →
      set L (.int k) f (itoa x) = (none, .int x)) := by
  refine ⟨fun s => by rw [set], ?_, ?_⟩
  · intro b
    cases b <;> rfl
  · intro k x hlo hhi
    have hat : atoi (itoa x) = .ok x :=
      (atoi_ok_iff _ _).mpr ⟨intOfText_itoa x, fits_int64 k x hlo hhi⟩
    rw [set, hat]
    simp only
    rw [wrapInt_of_fits k x hlo hhi]

theorem set_roundtrip_witness :
    set asciiLib (.int .int8) (.int 0) "-128".toList = (none, .int (-128)) ∧
    set asciiLib (.int .int64) (.int 0) "9223372036854775807".toList =
      (none, .int 9223372036854775807) :=
  have e1 : itoa (-128) = "-128".toList := by decide
  have e2 : itoa 9223372036854775807 = "9223372036854775807".toList := by decide
  ⟨e1 ▸ (set_roundtrip asciiLib (.int 0)).2.2 .int8 (-128) (by decide) (by decide),
   e2 ▸ (set_roundtrip asciiLib (.int 0)).2.2 .int64 9223372036854775807
     (by decide) (by decide)⟩

/-- C8, the input on which the code departs from the claim: the text `300`
overflows a field of 8 bits, yet `set` returns no error and the field holds
`44`, which is `300` cut to 8 bits. -/
theorem set_int8_overflow (L : Lib) (f : Value) :
    set L (.int .int8) f "300".toList = (none, .int 44) ∧
    ¬ (-(2 : Int) ^ 7 ≤ 300 ∧ (300 : Int) < 2 ^ 7) := by
  refine ⟨rfl, by decide⟩

/-- What the integer case of `set` does for every width: it accepts exactly
the base-10 signed literals that fit 64 bits and stores the low bits of the
value that the width of the field holds. -/
theorem set_int_iff (L : Lib) (k : IntKind) (f : Value) (raw : Str) (v : Value) :
    set L (.int k) f raw = (none, v) ↔
      ∃ n : Int, intOfText raw = some n ∧ -(2 : Int) ^ 63 ≤ n ∧ n < 2 ^ 63 ∧
        v = .int (wrapInt k.bits n) := by
  rw [set]
  constructor
  · intro h
    rcases ha : atoi raw with e | n
    · rw [ha] at h; simp at h
    · rw [ha] at h
      simp only [Prod.mk.injEq, true_and] at h
      obtain ⟨h1, h2, h3⟩ := (atoi_ok_iff raw n).mp ha
      exact ⟨n, h1, h2, h3, h.symm⟩
  · rintro ⟨n, h1, h2, h3, rfl⟩
    rw [(atoi_ok_iff raw n).mpr ⟨h1, h2, h3⟩]

/-- C10, as the code has it.  For bool and the signed integers, a text that
cannot be parsed (for bool any text outside the twelve literals of
`ParseBool`, for an integer any text that is no base-10 signed literal fitting
64 bits) makes the conversion fail and leaves the field as it was; the error
is the `NumError` of the parser, naming the function and the text, and no
`NumError` is `ErrInvalidValue`. -/
theorem set_parse_error (L : Lib) (f : Value) (raw : Str) :
    (raw ∉ boolLiterals → set L .bool f raw = (some (.num "ParseBool" raw .syntaxErr), f)) ∧
    (∀ k : IntKind, (∀ n : Int, intOfText raw = some n → ¬ (-(2 : Int) ^ 63 ≤ n ∧ n < 2 ^ 63)) →
      ∃ e : NumErr, set L (.int k) f raw = (some (.num "Atoi" raw e), f)) ∧
    (∀ (fn : String) (s : Str) (e : NumErr), Err.num fn s e ≠ Err.invalidValue) := by
  refine ⟨?_, ?_, fun fn s e => by simp⟩
  · intro h
    simp [boolLiterals] at h
    rw [set]
    simp [parseBool, h]
  · intro k h
    rw [set]
    rcases ha : atoi raw with e | n
    · unfold atoi at ha
      rcases hp : parseInt raw with e' | m
      · rw [hp] at ha
        simp only [Except.error.injEq] at ha
        exact ⟨e', by rw [← ha]⟩
      · rw [hp] at ha; simp at ha
    · obtain ⟨h1, h2⟩ := (atoi_ok_iff raw n).mp ha
      exact absurd h2 (h n h1)

theorem set_parse_error_witness :
    set asciiLib .bool (.bool true) "yes".toList =
      (some (.num "ParseBool" "yes".toList .syntaxErr), .bool true) :=
  (set_parse_error asciiLib (.bool true) "yes".toList).1 (by decide)

/-- C10 as stated fails: the error for a text that is no boolean is the
parser's `NumError`, not `ErrInvalidValue`. -/
theorem set_bool_error_not_invalidValue :
    (set asciiLib .bool (.bool false) "yes".toList).1 =
      some (.num "ParseBool" "yes".toList .syntaxErr) ∧
    (set asciiLib .bool (.bool false) "yes".toList).1 ≠ some Err.invalidValue ∧
    (set asciiLib (.int .int) (.int 0) "12a".toList).1 ≠ some Err.invalidValue := by
  decide


/-! ## Facts about maps -/

theorem floatEq_symm (a b : Nat) : floatEq a b = floatEq b a := by
  unfold floatEq
  have e : (a == b) = (b == a) := by
    rw [Bool.eq_iff_iff]
    simp only [beq_iff_eq]
    exact eq_comm
  rw [e]
  cases floatIsNaN a <;> cases floatIsNaN b <;> simp [Bool.and_comm]

theorem floatEq_trans {a b c : Nat} (h1 : floatEq a b = true) (h2 : floatEq b c = true) :
    floatEq a c = true := by
  unfold floatEq at *
  simp only [Bool.and_eq_true, Bool.not_eq_true', Bool.or_eq_true, beq_iff_eq] at *
  obtain ⟨⟨ha, _⟩, h1⟩ := h1
  obtain ⟨⟨_, hc⟩, h2⟩ := h2
  refine ⟨⟨ha, hc⟩, ?_⟩
  rcases h1 with h1 | ⟨h1, h1'⟩ <;> rcases h2 with h2 | ⟨h2, h2'⟩
  · left; omega
  · right; subst h1; exact ⟨h2, h2'⟩
  · right; subst h2; exact ⟨h1, h1'⟩
  · right; exact ⟨h1, h2'⟩

/-- Go `==` on keys is symmetric. -/
theorem keyEq_symm (a b : Value) : keyEq a b = keyEq b a := by
  cases a <;> cases b <;> simp only [keyEq] <;>
    first
    | exact floatEq_symm _ _
    | (rw [Bool.eq_iff_iff]; simp only [beq_iff_eq]; exact eq_comm)

/-- Go `==` on keys is transitive. -/
theorem keyEq_trans {a b c : Value} (h1 : keyEq a b = true) (h2 : keyEq b c = true) :
    keyEq a c = true := by
  cases a <;> cases b <;> simp only [keyEq, Bool.false_eq_true] at h1 <;>
    cases c <;> simp only [keyEq, Bool.false_eq_true] at h2 ⊢ <;>
    first
    | exact floatEq_trans h1 h2
    | (simp only [beq_iff_eq] at h1 h2 ⊢; exact h1.trans h2)

/-- A lookup after an assignment. -/
theorem mapIndex_mapAssign (m : List (Value × Value)) (k' v' k : Value) :
    mapIndex (mapAssign m k' v') k = if keyEq k' k then some v' else mapIndex m k := by
  induction m with
  | nil => simp [mapAssign, mapIndex]
  | cons e rest ih =>
    obtain ⟨a, va⟩ := e
    simp only [mapAssign]
    by_cases hak' : keyEq a k' = true
    · rw [if_pos hak']
      simp only [mapIndex]
      by_cases hk : keyEq k' k = true
      · rw [if_pos hk, if_pos hk]
      · rw [if_neg hk, if_neg hk]
        have : ¬ keyEq a k = true := fun h =>
          hk (keyEq_trans (by rw [keyEq_symm]; exact hak') h)
        rw [if_neg this]
    · rw [if_neg hak']
      simp only [mapIndex, ih]
      by_cases hak : keyEq a k = true
      · have : ¬ keyEq k' k = true := fun h =>
          hak' (keyEq_trans hak (by rw [keyEq_symm]; exact h))
        rw [if_pos hak, if_neg this, if_pos hak]
      · rw [if_neg hak, if_neg hak]

/-- A lookup after the assignments of a list of pairs: the last pair with
that key decides, and without such a pair the map is as before. -/
theorem mapIndex_assignAll (ps : List (Value × Value)) :
    ∀ (m : List (Value × Value)) (k : Value),
      mapIndex (assignAll m ps) k =
        match lastCarrying k ps with
        | some v => some v
        | none => mapIndex m k := by
  induction ps with
  | nil => intro m k; simp [assignAll, lastCarrying]
  | cons p rest ih =>
    intro m k
    have hstep : assignAll m (p :: rest) = assignAll (mapAssign m p.1 p.2) rest := by
      simp [assignAll]
    rw [hstep, ih, mapIndex_mapAssign]
    simp only [lastCarrying]
    cases lastCarrying k rest with
    | some v => rfl
    | none =>
      by_cases hk : keyEq p.1 k = true
      · simp [hk]
      · simp [hk]

/-- The map loop, when every pair is well formed and converts. -/
theorem setPairs_ok (L : Lib) (K V : Ty) :
    ∀ (pairs : List Str) (m : List (Value × Value)), (∀ p ∈ pairs, PairOK L K V p) →
      setPairs (set L K (zero K)) (set L V (zero V)) m pairs =
        .ok (assignAll m (pairs.map (convPair L K V))) := by
  intro pairs
  induction pairs with
  | nil => intro m _; simp [setPairs, assignAll]
  | cons x xs ih =>
    intro m h
    obtain ⟨a, b, hab, hka, hvb⟩ := h x (List.mem_cons_self _ _)
    have hc : convPair L K V x = ((set L K (zero K) a).2, (set L V (zero V) b).2) := by
      simp [convPair, hab]
    rcases hga : set L K (zero K) a with ⟨r1, kv⟩
    rcases hgb : set L V (zero V) b with ⟨r2, vv⟩
    rw [hga] at hka hc
    rw [hgb] at hvb hc
    simp only at hka hvb hc
    subst hka
    subst hvb
    rw [setPairs]
    simp only [hab, hga, hgb]
    rw [ih _ (fun p hp => h p (List.mem_cons_of_mem _ hp))]
    simp [assignAll, hc]


/-- The two ways an assignment goes: no entry has the key and the pair is
added, or the first entry with the key becomes the pair. -/
theorem mapAssign_cases (m : List (Value × Value)) (k v : Value) :
    ((∀ e ∈ m, keyEq e.1 k = false) ∧ mapAssign m k v = m ++ [(k, v)]) ∨
    (∃ l1 k' v' l2, m = l1 ++ (k', v') :: l2 ∧ (∀ e ∈ l1, keyEq e.1 k = false) ∧
      keyEq k' k = true ∧ mapAssign m k v = l1 ++ (k, v) :: l2) := by
  induction m with
  | nil => left; simp [mapAssign]
  | cons e rest ih =>
    obtain ⟨a, va⟩ := e
    by_cases ha : keyEq a k = true
    · right
      exact ⟨[], a, va, rest, rfl, by simp, ha, by simp [mapAssign, ha]⟩
    · have ha' : keyEq a k = false := by simpa using ha
      rcases ih with ⟨hno, heq⟩ | ⟨l1, k', v', l2, hm, hl1, hk', heq⟩
      · left
        refine ⟨?_, by simp [mapAssign, ha', heq]⟩
        intro e he
        rcases List.mem_cons.mp he with rfl | he
        · exact ha'
        · exact hno e he
      · right
        refine ⟨(a, va) :: l1, k', v', l2, by simp [hm], ?_, hk', by simp [mapAssign, ha', heq]⟩
        intro e he
        rcases List.mem_cons.mp he with rfl | he
        · exact ha'
        · exact hl1 e he

theorem MapInv_nil : MapInv [] [] := by
  refine ⟨?_, ?_, ?_, ?_⟩ <;> simp

/-- A key equal to `k'` is unequal to whatever `k'` is unequal to. -/
theorem keyEq_false_of_equal {k' k b : Value} (hk : keyEq k' k = true)
    (hb : keyEq k' b = false) : keyEq k b = false := by
  by_contra hcon
  have h1 : keyEq k b = true := by simpa using hcon
  have := keyEq_trans hk h1
  rw [hb] at this
  cases this

/-- One assignment keeps the map in step with the pairs. -/
theorem MapInv_step {m ps : List (Value × Value)} (k v : Value) (h : MapInv m ps) :
    MapInv (mapAssign m k v) (ps ++ [(k, v)]) := by
  obtain ⟨I1, I2, I3, I4⟩ := h
  rcases mapAssign_cases m k v with ⟨hno, heq⟩ | ⟨l1, k', v', l2, hm, hl1, hk', heq⟩
  · rw [heq]
    refine ⟨?_, ?_, ?_, ?_⟩
    · intro e he
      rcases List.mem_append.mp he with he | he
      · obtain ⟨before, after, hps, h4⟩ := I1 e he
        refine ⟨before, after ++ [(k, v)], by simp [hps], ?_⟩
        intro q hq
        rcases List.mem_append.mp hq with hq | hq
        · exact h4 q hq
        · rw [List.mem_singleton.mp hq]; exact hno e he
      · rw [List.mem_singleton.mp he]
        exact ⟨ps, [], rfl, by simp⟩
    · rw [List.map_append, List.pairwise_append]
      refine ⟨I2, by simp, ?_⟩
      intro a ha b hb
      obtain ⟨e, he, rfl⟩ := List.mem_map.mp ha
      simp only [List.map_cons, List.map_nil, List.mem_singleton] at hb
      rw [hb]; exact hno e he
    · intro e he
      rcases List.mem_append.mp he with he | he
      · have := I3 e he
        simp only [List.map_append, List.mem_append]
        exact Or.inl this
      · rw [List.mem_singleton.mp he]; simp
    · intro p hp
      rcases List.mem_append.mp hp with hp | hp
      · obtain ⟨e, he, hc⟩ := I4 p hp
        exact ⟨e, List.mem_append.mpr (Or.inl he), hc⟩
      · rw [List.mem_singleton.mp hp]
        exact ⟨(k, v), by simp, Or.inl rfl⟩
  · rw [heq]
    have hkk' : keyEq k k' = true := by rw [keyEq_symm]; exact hk'
    have hold := I2
    rw [hm, List.map_append, List.map_cons, List.pairwise_append, List.pairwise_cons] at hold
    obtain ⟨hP1, ⟨hk'l2, hP2⟩, hcross⟩ := hold
    have hl2 : ∀ e ∈ l2, keyEq e.1 k = false := by
      intro e he
      have hsep : keyEq k' e.1 = false := hk'l2 e.1 (List.mem_map_of_mem _ he)
      by_contra hcon
      have hek : keyEq e.1 k = true := by simpa using hcon
      have : keyEq k' e.1 = true := keyEq_trans hk' (by rw [keyEq_symm]; exact hek)
      rw [hsep] at this
      cases this
    refine ⟨?_, ?_, ?_, ?_⟩
    · intro e he
      rcases List.mem_append.mp he with he | he
      · have hem : e ∈ m := by rw [hm]; exact List.mem_append.mpr (Or.inl he)
        obtain ⟨before, after, hps, h4⟩ := I1 e hem
        refine ⟨before, after ++ [(k, v)], by simp [hps], ?_⟩
        intro q hq
        rcases List.mem_append.mp hq with hq | hq
        · exact h4 q hq
        · rw [List.mem_singleton.mp hq]; exact hl1 e he
      · rcases List.mem_cons.mp he with rfl | he
        · exact ⟨ps, [], rfl, by simp⟩
        · have hem : e ∈ m := by
            rw [hm]; exact List.mem_append.mpr (Or.inr (List.mem_cons_of_mem _ he))
          obtain ⟨before, after, hps, h4⟩ := I1 e hem
          refine ⟨before, after ++ [(k, v)], by simp [hps], ?_⟩
          intro q hq
          rcases List.mem_append.mp hq with hq | hq
          · exact h4 q hq
          · rw [List.mem_singleton.mp hq]; exact hl2 e he
    · rw [List.map_append, List.map_cons, List.pairwise_append, List.pairwise_cons]
      refine ⟨hP1, ⟨?_, hP2⟩, ?_⟩
      · intro b hb
        exact keyEq_false_of_equal hk' (hk'l2 b hb)
      · intro a ha b hb
        rcases List.mem_cons.mp hb with rfl | hb
        · obtain ⟨e, he, rfl⟩ := List.mem_map.mp ha
          exact hl1 e he
        · exact hcross a ha b (List.mem_cons_of_mem _ hb)
    · intro e he
      simp only [List.map_append, List.mem_append]
      rcases List.mem_append.mp he with he | he
      · exact Or.inl (I3 e (by rw [hm]; exact List.mem_append.mpr (Or.inl he)))
      · rcases List.mem_cons.mp he with rfl | he
        · right; simp
        · exact Or.inl (I3 e (by
            rw [hm]; exact List.mem_append.mpr (Or.inr (List.mem_cons_of_mem _ he))))
    · intro p hp
      rcases List.mem_append.mp hp with hp | hp
      · obtain ⟨e, he, hc⟩ := I4 p hp
        rw [hm] at he
        rcases List.mem_append.mp he with he | he
        · exact ⟨e, List.mem_append.mpr (Or.inl he), hc⟩
        · rcases List.mem_cons.mp he with rfl | he
          · refine ⟨(k, v), by simp, Or.inr ?_⟩
            rcases hc with hc | hc
            · simp only at hc
              rw [← hc]; exact hkk'
            · exact keyEq_trans hkk' hc
          · exact ⟨e, List.mem_append.mpr (Or.inr (List.mem_cons_of_mem _ he)), hc⟩
      · rw [List.mem_singleton.mp hp]
        exact ⟨(k, v), by simp, Or.inl rfl⟩

/-- The assignments of a list of pairs keep the map in step with the pairs. -/
theorem MapInv_assignAll (qs : List (Value × Value)) :
    ∀ (m ps : List (Value × Value)), MapInv m ps → MapInv (assignAll m qs) (ps ++ qs) := by
  induction qs with
  | nil => intro m ps h; simpa [assignAll] using h
  | cons q rest ih =>
    intro m ps h
    have hstep : assignAll m (q :: rest) = assignAll (mapAssign m q.1 q.2) rest := by
      simp [assignAll]
    have := ih _ _ (MapInv_step q.1 q.2 h)
    rw [hstep]
    simpa using this

/-- C5. For every key type `K`, value type `V` and text that is not empty or
all white space, whose pairs between commas each split on the colon into
exactly two segments that convert to `K` and `V`, converting the text to a map
succeeds whatever the field held before, and the map it yields depends on the
text alone: its keys are converted keys and every converted key is in it; no
two entries have equal keys; every entry has the converted value of the last
pair that carries its key; looking a key up gives the value of the last pair
with that key; and every entry is, key and value, the converted last pair that
carries its key. -/
theorem set_map_pairs (L : Lib) (K V : Ty) (raw : Str)
    (hraw : ¬ ∀ c ∈ raw, isSpace c = true)
    (hok : ∀ p ∈ split ',' raw, PairOK L K V p) :
    ∃ m : List (Value × Value),
      (∀ f : Value, set L (.map K V) f raw = (none, .map m)) ∧
      (∀ e ∈ m, e.1 ∈ ((split ',' raw).map (convPair L K V)).map Prod.fst) ∧
      (∀ p ∈ (split ',' raw).map (convPair L K V),
        ∃ e ∈ m, e.1 = p.1 ∨ keyEq e.1 p.1 = true) ∧
      (m.map Prod.fst).Pairwise (fun a b => keyEq a b = false) ∧
      (∀ e ∈ m, ∃ before p after,
        (split ',' raw).map (convPair L K V) = before ++ p :: after ∧ e.2 = p.2 ∧
        (e.1 = p.1 ∨ keyEq e.1 p.1 = true) ∧ ∀ q ∈ after, keyEq e.1 q.1 = false) ∧
      (∀ k : Value,
        mapIndex m k = lastCarrying k ((split ',' raw).map (convPair L K V))) ∧
      (∀ e ∈ m, ∃ before after,
        (split ',' raw).map (convPair L K V) = before ++ e :: after ∧
        ∀ q ∈ after, keyEq e.1 q.1 = false) := by
  have hblank : (trimSpace raw).length ≠ 0 := fun h =>
    hraw ((trimSpace_length_eq_zero_iff raw).mp h)
  have hinv := MapInv_assignAll ((split ',' raw).map (convPair L K V)) [] [] MapInv_nil
  rw [List.nil_append] at hinv
  obtain ⟨I1, I2, I3, I4⟩ := hinv
  refine ⟨assignAll [] ((split ',' raw).map (convPair L K V)), ?_, I3, I4, I2, ?_, ?_, I1⟩
  · intro f
    rw [set]
    simp only [hblank, ne_eq, not_false_eq_true, if_true]
    rw [setPairs_ok L K V _ [] hok]
  · intro e he
    obtain ⟨before, after, hps, h4⟩ := I1 e he
    exact ⟨before, e, after, hps, rfl, Or.inl rfl, h4⟩
  · intro k
    rw [mapIndex_assignAll]
    cases lastCarrying k ((split ',' raw).map (convPair L K V)) <;> simp [mapIndex]


theorem set_map_pairs_witness :
    ∃ m : List (Value × Value),
      (∀ f : Value,
        set asciiLib (.map .string (.int .int)) f "a:1,b:2,a:3".toList = (none, .map m)) ∧
      mapIndex m (.str "a".toList) = some (.int 3) ∧
      mapIndex m (.str "b".toList) = some (.int 2) ∧
      mapIndex m (.str "c".toList) = none := by
  have hsplit : split ',' "a:1,b:2,a:3".toList =
      ["a:1".toList, "b:2".toList, "a:3".toList] := by decide
  obtain ⟨m, h1, _, _, _, _, h6, _⟩ :=
    set_map_pairs asciiLib .string (.int .int) "a:1,b:2,a:3".toList (by decide)
      (by
        intro p hp
        rw [hsplit] at hp
        simp only [List.mem_cons, List.mem_singleton, List.not_mem_nil, or_false] at hp
        rcases hp with rfl | rfl | rfl
        · exact ⟨"a".toList, "1".toList, by decide, by decide, by decide⟩
        · exact ⟨"b".toList, "2".toList, by decide, by decide, by decide⟩
        · exact ⟨"a".toList, "3".toList, by decide, by decide, by decide⟩)
  exact ⟨m, h1, by rw [h6]; rfl, by rw [h6]; rfl, by rw [h6]; rfl⟩


/-! ## Facts about `set` as a whole -/

/-- When `set` returns an error the field holds what it held. -/
theorem set_error_unchanged (L : Lib) (t : Ty) (f : Value) (val : Str) (e : Err)
    (h : (set L t f val).1 = some e) : (set L t f val).2 = f := by
  cases t with
  | ptr t' =>
    rw [set] at h ⊢
    generalize set L t' (zero t') val = r at h ⊢
    obtain ⟨r, p⟩ := r
    cases r <;> simp at h ⊢
  | string => simp [set] at h
  | bool =>
    rw [set] at h ⊢
    generalize parseBool val = r at h ⊢
    cases r <;> simp at h ⊢
  | int k =>
    rw [set] at h ⊢
    generalize atoi val = r at h ⊢
    cases r <;> simp at h ⊢
  | map k' e' =>
    rw [set] at h ⊢
    by_cases hb : (trimSpace val).length ≠ 0
    · rw [if_pos hb] at h ⊢
      generalize setPairs (set L k' (zero k')) (set L e' (zero e')) [] (split ',' val) = r
        at h ⊢
      cases r <;> simp at h ⊢
    · rw [if_neg hb] at h
      simp at h
  | float32 =>
    rw [set] at h ⊢
    generalize L.parseFloat val 32 = r at h ⊢
    cases r <;> simp at h ⊢
  | float64 =>
    rw [set] at h ⊢
    generalize L.parseFloat val 64 = r at h ⊢
    cases r <;> simp at h ⊢
  | slice e' =>
    rw [set] at h ⊢
    by_cases hu : e' = .uint .uint8
    · rw [if_pos hu] at h
      simp at h
    · rw [if_neg hu] at h ⊢
      by_cases hb : (trimSpace val).length ≠ 0
      · rw [if_pos hb] at h ⊢
        generalize setEach (set L e' (zero e')) (split ',' val) = r at h ⊢
        cases r <;> simp at h ⊢
      · rw [if_neg hb] at h
        simp at h
  | uint k => simp [set]
  | complex64 => simp [set]
  | complex128 => simp [set]
  | array n e' => simp [set]
  | chan e' => simp [set]
  | func => simp [set]
  | interface => simp [set]
  | struct => simp [set]
  | unsafePointer => simp [set]

/-- C18. `set` is atomic on its target field: for every type, text and prior
value of the field, if `set` returns an error the field still holds its prior
value, also when a map, slice or pointer conversion fails after some of its
parts were converted. -/
theorem set_atomic (L : Lib) (t : Ty) (f : Value) (val : Str) (e : Err)
    (h : (set L t f val).1 = some e) :
    (set L t f val).2 = f :=
  set_error_unchanged L t f val e h

theorem set_atomic_witness :
    set asciiLib (.slice (.int .int)) (.slice [.int 7]) "0,1,x".toList =
      (some (.num "Atoi" "x".toList .syntaxErr), .slice [.int 7]) ∧
    (set asciiLib (.map .string (.ptr .bool)) (.map [(.str "k".toList, .nilPtr)])
      "a:true,b:maybe".toList).2 = .map [(.str "k".toList, .nilPtr)] :=
  ⟨Prod.ext (by decide)
    (set_atomic asciiLib (.slice (.int .int)) (.slice [.int 7]) "0,1,x".toList
      (.num "Atoi" "x".toList .syntaxErr) (by decide)),
   set_atomic asciiLib (.map .string (.ptr .bool)) (.map [(.str "k".toList, .nilPtr)])
      "a:true,b:maybe".toList (.num "ParseBool" "maybe".toList .syntaxErr) (by decide)⟩

/-- C17, the input on which the code departs from its doc comment: every
unsigned integer kind falls to the default case of `set`, which returns
`ErrUnsupported` and leaves the field as it was, whatever the text. -/
theorem set_uint_unsupported (L : Lib) (k : UintKind) (f : Value) (val : Str) :
    set L (.uint k) f val = (some .unsupported, f) ∧
    set L (.uint .uint) (.uint 0) "1".toList = (some .unsupported, .uint 0) := by
  constructor <;> simp [set]

/-- C16, inputs on which the code departs from the claim and from the call
in `TestConfig`: `Unmarshal` and `set` take no delimiters; the texts are always
split on the comma and the colon, so a list written with `;` is one part and a
pair written with `=` is malformed. -/
theorem set_delimiters_fixed (L : Lib) (f : Value) :
    set L (.slice (.int .int)) f "1;2".toList =
      (some (.num "Atoi" "1;2".toList .syntaxErr), f) ∧
    set L (.slice .string) f "a;b".toList = (none, .slice [.str "a;b".toList]) ∧
    set L (.map .string .string) f "k=v".toList = (some (.mapItem "k=v".toList), f) := by
  refine ⟨rfl, rfl, rfl⟩

/-- C14, the record of the doc comment: its fields are not exported, so for
every environment `Unmarshal` returns `ErrUnexported` at the first field and
sets nothing. -/
theorem Unmarshal_doc_example (L : Lib) (env : Env) :
    Unmarshal L env (.ptr (.struct docCfg)) "MYAPP".toList =
      (some .unexported, .ptr (.struct docCfg)) := by
  rfl


/-- No piece of a split contains the separator. -/
theorem split_no_sep (sep : Char) (s : Str) : ∀ p ∈ split sep s, sep ∉ p := by
  induction s with
  | nil => intro p hp; simp [split] at hp; simp [hp]
  | cons c cs ih =>
    intro p hp
    simp only [split] at hp
    by_cases h : c = sep
    · rw [if_pos h] at hp
      rcases List.mem_cons.mp hp with rfl | hp
      · simp
      · exact ih p hp
    · rw [if_neg h] at hp
      cases hs : split sep cs with
      | nil => exact absurd hs (split_ne_nil sep cs)
      | cons q qs =>
        rw [hs] at hp ih
        rcases List.mem_cons.mp hp with rfl | hp
        · intro hmem
          rcases List.mem_cons.mp hmem with hc | hq
          · exact h hc.symm
          · exact ih q (List.mem_cons_self _ _) hq
        · exact ih p (List.mem_cons_of_mem _ hp)

/-- A text without the separator is its own single piece. -/
theorem split_of_not_mem (sep : Char) (s : Str) (h : sep ∉ s) : split sep s = [s] := by
  induction s with
  | nil => rfl
  | cons c cs ih =>
    have hc : c ≠ sep := fun e => h (by simp [e])
    have hcs : sep ∉ cs := fun e => h (List.mem_cons_of_mem _ e)
    simp [split, hc, ih hcs]

/-- The slice loop, read back from a result without error. -/
theorem setEach_ok_inv (g : Str → Option Err × Value) :
    ∀ (parts : List Str) (xs : List Value), setEach g parts = .ok xs →
      xs = parts.map (fun p => (g p).2) ∧ ∀ p ∈ parts, (g p).1 = none := by
  intro parts
  induction parts with
  | nil => intro xs h; simp [setEach] at h; simp [h]
  | cons x rest ih =>
    intro xs h
    rw [setEach] at h
    rcases hg : g x with ⟨r, y⟩
    rw [hg] at h
    cases r with
    | some err => simp at h
    | none =>
      simp only at h
      rcases hrec : setEach g rest with err | ys
      · rw [hrec] at h; simp at h
      · rw [hrec] at h
        simp only [Except.ok.injEq] at h
        obtain ⟨h1, h2⟩ := ih ys hrec
        refine ⟨?_, ?_⟩
        · rw [← h, h1]; simp [hg]
        · intro p hp
          rcases List.mem_cons.mp hp with rfl | hp
          · simp [hg]
          · exact h2 p hp

/-- A slice of a type other than byte, converted from a text without a comma,
has at most one element. -/
theorem set_slice_no_comma (L : Lib) (T : Ty) (f : Value) (p : Str) (hT : T ≠ .uint .uint8)
    (hp : ',' ∉ p) (hok : (set L (.slice T) f p).1 = none) :
    ∃ ys, (set L (.slice T) f p).2 = .slice ys ∧ ys.length ≤ 1 := by
  rw [set] at hok ⊢
  rw [if_neg hT] at hok ⊢
  by_cases hb : (trimSpace p).length ≠ 0
  · rw [if_pos hb] at hok ⊢
    rw [split_of_not_mem ',' p hp] at hok ⊢
    rcases hs : setEach (set L T (zero T)) [p] with err | xs
    · rw [hs] at hok; simp at hok
    · obtain ⟨h1, _⟩ := setEach_ok_inv _ _ _ hs
      exact ⟨xs, rfl, by rw [h1]; simp⟩
  · rw [if_neg hb]
    exact ⟨[], rfl, by simp⟩

/-- C19. For every element type `T` other than byte and every text, a
conversion of the text to a slice of slices of `T` that succeeds yields inner
slices of at most one element each: the comma that separates the outer parts
cannot occur inside a part. -/
theorem set_slice_of_slices (L : Lib) (T : Ty) (f : Value) (raw : Str) (v : Value)
    (hT : T ≠ .uint .uint8) (hok : set L (.slice (.slice T)) f raw = (none, v)) :
    ∃ vs, v = .slice vs ∧ ∀ x ∈ vs, ∃ ys, x = .slice ys ∧ ys.length ≤ 1 := by
  rw [set] at hok
  have hne : Ty.slice T ≠ .uint .uint8 := by simp
  rw [if_neg hne] at hok
  by_cases hb : (trimSpace raw).length ≠ 0
  · rw [if_pos hb] at hok
    rcases hs : setEach (set L (.slice T) (zero (.slice T))) (split ',' raw) with err | xs
    · rw [hs] at hok; simp at hok
    · rw [hs] at hok
      simp only [Prod.mk.injEq, true_and] at hok
      obtain ⟨h1, h2⟩ := setEach_ok_inv _ _ _ hs
      refine ⟨xs, hok.symm, ?_⟩
      intro x hx
      rw [h1] at hx
      obtain ⟨p, hp, rfl⟩ := List.mem_map.mp hx
      exact set_slice_no_comma L T _ p hT (split_no_sep ',' raw p hp) (h2 p hp)
  · rw [if_neg hb] at hok
    simp only [Prod.mk.injEq, true_and] at hok
    exact ⟨[], hok.symm, by simp⟩

theorem set_slice_of_slices_witness :
    set asciiLib (.slice (.slice (.int .int))) .nilSlice "1,2, ,3".toList =
      (none, .slice [.slice [.int 1], .slice [.int 2], .slice [], .slice [.int 3]]) ∧
    ∃ vs, Value.slice [.slice [.int 1], .slice [.int 2], .slice [], .slice [.int 3]] =
        .slice vs ∧ ∀ x ∈ vs, ∃ ys, x = .slice ys ∧ ys.length ≤ 1 :=
  ⟨rfl, set_slice_of_slices asciiLib (.int .int) .nilSlice "1,2, ,3".toList _ (by decide) rfl⟩


/-! ## Facts about the loop of `Unmarshal` -/

theorem Unmarshal_struct (L : Lib) (env : Env) (pre : Str) (fs : List (FieldInfo × Slot)) :
    Unmarshal L env (.ptr (.struct fs)) pre =
      ((unmarshalFields L env pre fs).1, .ptr (.struct (unmarshalFields L env pre fs).2)) := by
  simp only [Unmarshal]

/-- After the loop a field holds what its round left, or what it held when
the loop ended before it. -/
theorem unmarshalFields_get (L : Lib) (env : Env) (pre : Str) :
    ∀ (fs : List (FieldInfo × Slot)) (i : Nat) (tf : FieldInfo) (vf : Slot),
      fs[i]? = some (tf, vf) →
      (unmarshalFields L env pre fs).2[i]? = some (tf, (unmarshalField L env pre tf vf).2) ∨
      (unmarshalFields L env pre fs).2[i]? = some (tf, vf) := by
  intro fs
  induction fs with
  | nil => intro i tf vf hi; simp at hi
  | cons x rest ih =>
    intro i tf vf hi
    obtain ⟨tf0, vf0⟩ := x
    rw [unmarshalFields]
    rcases h1 : unmarshalField L env pre tf0 vf0 with ⟨r1, vf1⟩
    cases r1 with
    | some err =>
      simp only
      cases i with
      | zero =>
        simp only [List.getElem?_cons_zero, Option.some.injEq, Prod.mk.injEq] at hi
        obtain ⟨rfl, rfl⟩ := hi
        left; simp [h1]
      | succ j =>
        simp only [List.getElem?_cons_succ] at hi ⊢
        right; exact hi
    | none =>
      simp only
      cases i with
      | zero =>
        simp only [List.getElem?_cons_zero, Option.some.injEq, Prod.mk.injEq] at hi
        obtain ⟨rfl, rfl⟩ := hi
        left; simp [h1]
      | succ j =>
        simp only [List.getElem?_cons_succ] at hi ⊢
        exact ih j tf vf hi

/-- When no earlier field fails, the field at `i` holds what its round left,
and an error of its round is the error of the loop. -/
theorem unmarshalFields_reach (L : Lib) (env : Env) (pre : Str) :
    ∀ (fs : List (FieldInfo × Slot)) (i : Nat) (tf : FieldInfo) (vf : Slot),
      NoEarlierFailure L env pre fs i → fs[i]? = some (tf, vf) →
      (unmarshalFields L env pre fs).2[i]? = some (tf, (unmarshalField L env pre tf vf).2) ∧
      ∀ e, (unmarshalField L env pre tf vf).1 = some e →
        (unmarshalFields L env pre fs).1 = some e := by
  intro fs
  induction fs with
  | nil => intro i tf vf _ hi; simp at hi
  | cons x rest ih =>
    intro i tf vf hreach hi
    obtain ⟨tf0, vf0⟩ := x
    rw [unmarshalFields]
    rcases h1 : unmarshalField L env pre tf0 vf0 with ⟨r1, vf1⟩
    cases i with
    | zero =>
      simp only [List.getElem?_cons_zero, Option.some.injEq, Prod.mk.injEq] at hi
      obtain ⟨rfl, rfl⟩ := hi
      rw [h1]
      cases r1 with
      | some err => simp
      | none => simp
    | succ j =>
      have h0 : (unmarshalField L env pre tf0 vf0).1 = none :=
        hreach 0 tf0 vf0 (Nat.succ_pos j) (by simp)
      rw [h1] at h0
      simp only at h0
      subst h0
      simp only [List.getElem?_cons_succ] at hi ⊢
      exact ih j tf vf
        (fun k tg vg hk hg => hreach (k + 1) tg vg (Nat.succ_lt_succ hk) (by simpa using hg))
        hi

/-- A round on a field without a default, or with the empty one, that is not
of struct kind: nothing happens. -/
theorem unmarshalField_leaf_untagged (L : Lib) (env : Env) (pre : Str) (tf : FieldInfo)
    (t : Ty) (v : Value) (h : tf.tagVal = []) :
    unmarshalField L env pre tf (.leaf t v) = (none, .leaf t v) := by
  rw [unmarshalField]
  simp [h]

/-- A round on a field of struct kind leaves it as it was when the field is
not exported, and leaves what the nested loop left when it is. -/
theorem unmarshalField_struct_result (L : Lib) (env : Env) (pre : Str) (tf : FieldInfo)
    (gs : List (FieldInfo × Slot)) :
    (tf.exported = false → unmarshalField L env pre tf (.struct gs) = (none, .struct gs)) ∧
    (tf.exported = true → (unmarshalField L env pre tf (.struct gs)).2 =
      .struct (unmarshalFields L env (toEnvVarName L tf.name pre) gs).2) := by
  constructor
  · intro h
    rw [unmarshalField]
    simp [h]
  · intro h
    rw [unmarshalField]
    simp only [h, Bool.not_true, Bool.false_eq_true, if_false]
    rcases unmarshalFields L env (toEnvVarName L tf.name pre) gs with ⟨r, gs'⟩
    cases r with
    | some err => rfl
    | none =>
      simp only
      split_ifs <;> rfl

/-- The frame of the walk: a field that is not of struct kind and has no
default, or the empty one, holds after the loop what it held before, at any
depth. -/
theorem unmarshalFields_frame (L : Lib) (env : Env) :
    ∀ (path : List Nat) (pre : Str) (fs : List (FieldInfo × Slot)) (tf : FieldInfo)
      (t : Ty) (v : Value),
      slotAt fs path = some (tf, .leaf t v) → tf.tagVal = [] →
      slotAt (unmarshalFields L env pre fs).2 path = some (tf, .leaf t v) := by
  intro path
  induction path with
  | nil => intro pre fs tf t v h; simp [slotAt] at h
  | cons i rest ih =>
    intro pre fs tf t v hat htag
    cases rest with
    | nil =>
      simp only [slotAt] at hat ⊢
      rcases unmarshalFields_get L env pre fs i tf _ hat with h | h
      · rw [h, unmarshalField_leaf_untagged L env pre tf t v htag]
      · exact h
    | cons j path =>
      simp only [slotAt] at hat ⊢
      cases hi : fs[i]? with
      | none => simp [hi] at hat
      | some x =>
        obtain ⟨tf0, s0⟩ := x
        cases s0 with
        | leaf t0 v0 => simp [hi] at hat
        | struct gs =>
          simp only [hi] at hat
          rcases unmarshalFields_get L env pre fs i tf0 _ hi with h | h
          · rw [h]
            obtain ⟨h1, h2⟩ := unmarshalField_struct_result L env pre tf0 gs
            by_cases he : tf0.exported = true
            · rw [h2 he]
              exact ih _ gs tf t v hat htag
            · have he' : tf0.exported = false := by simpa using he
              rw [h1 he']
              exact hat
          · rw [h]
            exact hat

/-- C11. For every record, prefix and environment, a field that is not of
struct kind and carries no default keeps the value the caller gave it, at any
depth and whether `Unmarshal` returns an error or not, also when the
environment defines its variable: `Disabled` stays `false` under
`MYAPP_DISABLED=true`. -/
theorem Unmarshal_keeps_unannotated (L : Lib) (env : Env) (pre : Str)
    (fs : List (FieldInfo × Slot)) (path : List Nat) (tf : FieldInfo) (t : Ty) (v : Value)
    (hat : slotAt fs path = some (tf, .leaf t v)) (htag : tf.tag = none) :
    ∃ fs', (Unmarshal L env (.ptr (.struct fs)) pre).2 = .ptr (.struct fs') ∧
      slotAt fs' path = some (tf, .leaf t v) := by
  refine ⟨(unmarshalFields L env pre fs).2, by rw [Unmarshal_struct], ?_⟩
  exact unmarshalFields_frame L env path pre fs tf t v hat (by simp [FieldInfo.tagVal, htag])

theorem Unmarshal_keeps_unannotated_witness :
    testFlagsEnv (toEnvVarName asciiLib "Disabled".toList "MYAPP".toList) =
      some "true".toList ∧
    ∃ fs', (Unmarshal asciiLib testFlagsEnv (.ptr (.struct testFlags)) "MYAPP".toList).2 =
        .ptr (.struct fs') ∧
      slotAt fs' [1] = some (plain "Disabled" .bool (.bool false)) :=
  ⟨by decide,
   Unmarshal_keeps_unannotated asciiLib testFlagsEnv "MYAPP".toList testFlags [1]
     (plain "Disabled" .bool (.bool false)).1 .bool (.bool false) rfl rfl⟩

/-- C20. A field whose default is the empty string is treated exactly like a
field without a default: a round of the loop does the same with it for every
kind of field and every environment; when it is not of struct kind the round
returns no error and leaves it alone, whether or not the field is settable or
its type supported, and after `Unmarshal` it holds its prior value. -/
theorem Unmarshal_empty_default (L : Lib) (env : Env) (pre : Str) (tf : FieldInfo)
    (htag : tf.tag = some []) :
    (∀ s, unmarshalField L env pre tf s =
      unmarshalField L env pre { name := tf.name, tag := none, exported := tf.exported } s) ∧
    (∀ t v, unmarshalField L env pre tf (.leaf t v) = (none, .leaf t v)) ∧
    (∀ fs path t v, slotAt fs path = some (tf, .leaf t v) →
      ∃ fs', (Unmarshal L env (.ptr (.struct fs)) pre).2 = .ptr (.struct fs') ∧
        slotAt fs' path = some (tf, .leaf t v)) := by
  have hval : tf.tagVal = [] := by simp [FieldInfo.tagVal, htag]
  refine ⟨?_, ?_, ?_⟩
  · intro s
    cases s with
    | leaf t v =>
      rw [unmarshalField_leaf_untagged L env pre tf t v hval,
        unmarshalField_leaf_untagged L env pre _ t v (by simp [FieldInfo.tagVal])]
    | struct gs =>
      rw [unmarshalField, unmarshalField]
      simp [FieldInfo.tagVal, htag]
  · intro t v
    exact unmarshalField_leaf_untagged L env pre tf t v hval
  · intro fs path t v hat
    refine ⟨(unmarshalFields L env pre fs).2, by rw [Unmarshal_struct], ?_⟩
    exact unmarshalFields_frame L env path pre fs tf t v hat hval

theorem Unmarshal_empty_default_witness :
    Unmarshal asciiLib (fun _ => some "8080".toList) (.ptr (.struct emptyDefault))
      "MYAPP".toList = (none, .ptr (.struct emptyDefault)) ∧
    unmarshalField asciiLib (fun _ => some "8080".toList) "MYAPP".toList
      { name := "port".toList, tag := some [], exported := false }
      (.leaf (.uint .uint16) (.uint 80)) = (none, .leaf (.uint .uint16) (.uint 80)) :=
  ⟨rfl,
   (Unmarshal_empty_default asciiLib (fun _ => some "8080".toList) "MYAPP".toList
     { name := "port".toList, tag := some [], exported := false } rfl).2.1
     (.uint .uint16) (.uint 80)⟩


/-- A round on a settable field with a non-empty default that is not of
struct kind: `set` on the text `rawFor` picks. -/
theorem unmarshalField_leaf_tagged (L : Lib) (env : Env) (pre : Str) (tf : FieldInfo)
    (t : Ty) (v : Value) (d : Str) (htag : tf.tag = some d) (hd : d ≠ [])
    (hexp : tf.exported = true) :
    unmarshalField L env pre tf (.leaf t v) =
      ((set L t v (rawFor env (toEnvVarName L tf.name pre) d)).1,
        .leaf t (set L t v (rawFor env (toEnvVarName L tf.name pre) d)).2) := by
  rw [unmarshalField]
  have htv : tf.tagVal = d := by simp [FieldInfo.tagVal, htag]
  simp only [htv, hd, hexp, if_false, Bool.not_true, Bool.false_eq_true]
  rw [getenv_or_default]

/-- A round on a field with a non-empty default that is not settable and not
of struct kind: `ErrUnexported`, the field as it was. -/
theorem unmarshalField_leaf_unexported (L : Lib) (env : Env) (pre : Str) (tf : FieldInfo)
    (t : Ty) (v : Value) (d : Str) (htag : tf.tag = some d) (hd : d ≠ [])
    (hexp : tf.exported = false) :
    unmarshalField L env pre tf (.leaf t v) = (some .unexported, .leaf t v) := by
  rw [unmarshalField]
  have htv : tf.tagVal = d := by simp [FieldInfo.tagVal, htag]
  simp [htv, hd, hexp]

/-- C12 as stated fails: a field of struct kind that is not exported is not
recursed into, so the default of its field `Egg` is not applied. -/
theorem Unmarshal_skips_unexported_struct :
    Unmarshal asciiLib (fun _ => none) (.ptr (.struct hiddenNest)) "MYAPP".toList =
      (none, .ptr (.struct hiddenNest)) ∧
    slotAt hiddenNest [0, 0] = some (field "Egg" "chicken" .string (.str [])) := by
  exact ⟨rfl, rfl⟩

/-- C12, as the code has it.  For every record and every exported field of
struct kind that the loop reaches, `Unmarshal` recurses into the field with
the extended prefix, whether or not the field itself carries a default: the
field holds what the nested loop left, and every settable field with a
non-empty default that the nested loop reaches was set from its variable or
its default.  The same holds at every depth, the nested loop being a loop of
`Unmarshal`. -/
theorem Unmarshal_recurses_exported_struct (L : Lib) (env : Env) (pre : Str)
    (fs : List (FieldInfo × Slot)) (i : Nat) (tf : FieldInfo) (gs : List (FieldInfo × Slot))
    (hfield : fs[i]? = some (tf, .struct gs)) (hexp : tf.exported = true)
    (hreach : NoEarlierFailure L env pre fs i) :
    ∃ fs', (Unmarshal L env (.ptr (.struct fs)) pre).2 = .ptr (.struct fs') ∧
      fs'[i]? = some (tf, .struct (unmarshalFields L env (toEnvVarName L tf.name pre) gs).2) ∧
      ∀ j tg t v d, gs[j]? = some (tg, .leaf t v) → tg.tag = some d → d ≠ [] →
        tg.exported = true → NoEarlierFailure L env (toEnvVarName L tf.name pre) gs j →
        (unmarshalFields L env (toEnvVarName L tf.name pre) gs).2[j]? =
          some (tg, .leaf t (set L t v
            (rawFor env (toEnvVarName L tg.name (toEnvVarName L tf.name pre)) d)).2) := by
  refine ⟨(unmarshalFields L env pre fs).2, by rw [Unmarshal_struct], ?_, ?_⟩
  · rw [(unmarshalFields_reach L env pre fs i tf _ hreach hfield).1,
      (unmarshalField_struct_result L env pre tf gs).2 hexp]
  · intro j tg t v d hj htag hd hexpj hreachj
    rw [(unmarshalFields_reach L env _ gs j tg _ hreachj hj).1,
      unmarshalField_leaf_tagged L env _ tg t v d htag hd hexpj]

theorem Unmarshal_recurses_exported_struct_witness :
    Unmarshal asciiLib (fun _ => none) (.ptr (.struct taggedNest)) "MYAPP".toList =
      (some .unsupported, .ptr (.struct
        [ ({ name := "Nest".toList, tag := some "x".toList, exported := true },
            .struct [field "Egg" "chicken" .string (.str "chicken".toList)]) ])) ∧
    ∃ fs', (Unmarshal asciiLib (fun _ => none) (.ptr (.struct taggedNest)) "MYAPP".toList).2 =
        .ptr (.struct fs') ∧
      fs'[0]? = some ({ name := "Nest".toList, tag := some "x".toList, exported := true },
        .struct [field "Egg" "chicken" .string (.str "chicken".toList)]) := by
  refine ⟨rfl, ?_⟩
  obtain ⟨fs', h1, h2, _⟩ := Unmarshal_recurses_exported_struct asciiLib (fun _ => none)
    "MYAPP".toList taggedNest 0
    { name := "Nest".toList, tag := some "x".toList, exported := true }
    [field "Egg" "chicken" .string (.str [])] rfl rfl
    (by intro j tf vf hj; omega)
  exact ⟨fs', h1, h2⟩

/-- C13 as stated fails: a field of struct kind that carries a default and is
not exported is skipped without error, and so is a field whose default is the
empty string. -/
theorem Unmarshal_skips_unexported_annotated :
    Unmarshal asciiLib (fun _ => none) (.ptr (.struct hiddenNestTagged)) "MYAPP".toList =
      (none, .ptr (.struct hiddenNestTagged)) ∧
    Unmarshal asciiLib (fun _ => none) (.ptr (.struct emptyDefault)) "MYAPP".toList =
      (none, .ptr (.struct emptyDefault)) := by
  exact ⟨rfl, rfl⟩

/-- C13, as the code has it.  For every record in which a field that is not
of struct kind carries a non-empty default but is not settable, and no earlier
field fails, `Unmarshal` fails with `ErrUnexported` when it reaches that field,
whatever the type of the field and the environment, and the field holds what
it held. -/
theorem Unmarshal_unexported_field (L : Lib) (env : Env) (pre : Str)
    (fs : List (FieldInfo × Slot)) (i : Nat) (tf : FieldInfo) (t : Ty) (v : Value) (d : Str)
    (hfield : fs[i]? = some (tf, .leaf t v)) (htag : tf.tag = some d) (hd : d ≠ [])
    (hexp : tf.exported = false) (hreach : NoEarlierFailure L env pre fs i) :
    (Unmarshal L env (.ptr (.struct fs)) pre).1 = some .unexported ∧
    ∃ fs', (Unmarshal L env (.ptr (.struct fs)) pre).2 = .ptr (.struct fs') ∧
      fs'[i]? = some (tf, .leaf t v) := by
  obtain ⟨h1, h2⟩ := unmarshalFields_reach L env pre fs i tf _ hreach hfield
  rw [unmarshalField_leaf_unexported L env pre tf t v d htag hd hexp] at h1 h2
  rw [Unmarshal_struct]
  exact ⟨h2 _ rfl, _, rfl, h1⟩

theorem Unmarshal_unexported_field_witness :
    (Unmarshal asciiLib testEnv (.ptr (.struct docCfg)) "MYAPP".toList).1 =
      some .unexported :=
  (Unmarshal_unexported_field asciiLib testEnv "MYAPP".toList docCfg 0
    { name := "apiPort".toList, tag := some "8080".toList, exported := false }
    (.int .int) (.int 0) "8080".toList rfl rfl (by decide) rfl
    (by intro j tf vf hj; omega)).1


/-! ## The first failure of the walk -/

/-- A round that returns no error on a field with a non-empty default that is
not of struct kind has converted it. -/
theorem unmarshalField_leaf_processed (L : Lib) (env : Env) (pre : Str) (tf : FieldInfo)
    (t : Ty) (v : Value) (d : Str) (htag : tf.tag = some d) (hd : d ≠ [])
    (hok : (unmarshalField L env pre tf (.leaf t v)).1 = none) :
    (set L t v (rawFor env (toEnvVarName L tf.name pre) d)).1 = none ∧
    (unmarshalField L env pre tf (.leaf t v)).2 =
      .leaf t (set L t v (rawFor env (toEnvVarName L tf.name pre) d)).2 := by
  by_cases hexp : tf.exported = true
  · rw [unmarshalField_leaf_tagged L env pre tf t v d htag hd hexp] at hok ⊢
    exact ⟨hok, rfl⟩
  · have hexp' : tf.exported = false := by simpa using hexp
    rw [unmarshalField_leaf_unexported L env pre tf t v d htag hd hexp'] at hok
    simp at hok

/-- A loop that fails: the failing field, the fields before it and the fields
after it. -/
theorem unmarshalFields_error (L : Lib) (env : Env) (pre : Str) :
    ∀ (fs fs' : List (FieldInfo × Slot)) (err : Err),
      unmarshalFields L env pre fs = (some err, fs') →
      ∃ k tf vf, fs[k]? = some (tf, vf) ∧ (unmarshalField L env pre tf vf).1 = some err ∧
        fs'[k]? = some (tf, (unmarshalField L env pre tf vf).2) ∧
        ProcessedBefore L env pre fs fs' k ∧ UntouchedAfter fs fs' k := by
  intro fs
  induction fs with
  | nil => intro fs' err h; simp [unmarshalFields] at h
  | cons x rest ih =>
    intro fs' err h
    obtain ⟨tf0, vf0⟩ := x
    rw [unmarshalFields] at h
    rcases h1 : unmarshalField L env pre tf0 vf0 with ⟨r1, vf1⟩
    rw [h1] at h
    cases r1 with
    | some e =>
      simp only [Prod.mk.injEq, Option.some.injEq] at h
      obtain ⟨rfl, rfl⟩ := h
      refine ⟨0, tf0, vf0, by simp, by simp [h1], by simp [h1], ?_, ?_⟩
      · intro j tf vf hj; omega
      · intro j hj
        cases j with
        | zero => omega
        | succ j => simp
    | none =>
      rcases h2 : unmarshalFields L env pre rest with ⟨r2, rest2⟩
      rw [h2] at h
      simp only [Prod.mk.injEq] at h
      obtain ⟨rfl, rfl⟩ := h
      obtain ⟨k, tf, vf, hk, hfail, hres, hbefore, hafter⟩ := ih rest2 err h2
      refine ⟨k + 1, tf, vf, by simpa using hk, hfail, by simpa using hres, ?_, ?_⟩
      · intro j tg vg hj hg
        cases j with
        | zero =>
          simp only [List.getElem?_cons_zero, Option.some.injEq, Prod.mk.injEq] at hg
          obtain ⟨rfl, rfl⟩ := hg
          have hok : (unmarshalField L env pre tf0 vf0).1 = none := by simp [h1]
          refine ⟨hok, by simp [h1], ?_⟩
          intro t v d hleaf htag hd
          subst hleaf
          obtain ⟨hs1, hs2⟩ := unmarshalField_leaf_processed L env pre tf0 t v d htag hd hok
          refine ⟨hs1, ?_⟩
          rw [← hs2]
          simp [h1]
        | succ j =>
          have := hbefore j tg vg (by omega) (by simpa using hg)
          simpa using this
      · intro j hj
        cases j with
        | zero => omega
        | succ j =>
          have := hafter j (by omega)
          simpa using this

/-- A round that fails: the field is not of struct kind and is left as it
was, or it is an exported field of struct kind whose nested loop failed with
the same error, or whose nested loop ran without error before the field
itself was refused. -/
theorem unmarshalField_error_cases (L : Lib) (env : Env) (pre : Str) (tf : FieldInfo)
    (vf : Slot) (err : Err) (h : (unmarshalField L env pre tf vf).1 = some err) :
    (∃ t v, vf = .leaf t v ∧ (unmarshalField L env pre tf vf).2 = .leaf t v) ∨
    (∃ gs gs', vf = .struct gs ∧ tf.exported = true ∧
      (unmarshalField L env pre tf vf).2 = .struct gs' ∧
      (unmarshalFields L env (toEnvVarName L tf.name pre) gs = (some err, gs') ∨
       (unmarshalFields L env (toEnvVarName L tf.name pre) gs = (none, gs') ∧
        err = .unsupported))) := by
  cases vf with
  | leaf t v =>
    left
    refine ⟨t, v, rfl, ?_⟩
    rw [unmarshalField] at h ⊢
    by_cases h1 : tf.tagVal = []
    · simp [h1] at h
    · rw [if_neg h1] at h ⊢
      by_cases h2 : (!tf.exported) = true
      · rw [if_pos h2]
      · rw [if_neg h2] at h ⊢
        simp only at h ⊢
        rw [set_error_unchanged L t v _ err h]
  | struct gs =>
    right
    rw [unmarshalField] at h ⊢
    by_cases h2 : (!tf.exported) = true
    · simp [h2] at h
    · have hexp : tf.exported = true := by simpa using h2
      rw [if_neg h2] at h ⊢
      rcases hn : unmarshalFields L env (toEnvVarName L tf.name pre) gs with ⟨r, gs'⟩
      rw [hn] at h
      cases r with
      | some e =>
        simp only [Option.some.injEq] at h
        subst h
        exact ⟨gs, gs', rfl, hexp, rfl, Or.inl hn⟩
      | none =>
        simp only at h ⊢
        by_cases h1 : tf.tagVal = []
        · simp [h1] at h
        · rw [if_neg h1, if_neg h2] at h ⊢
          simp only [Option.some.injEq] at h
          exact ⟨gs, gs', rfl, hexp, rfl, Or.inr ⟨hn, h.symm⟩⟩

theorem sizeOf_nested_lt (fs gs : List (FieldInfo × Slot)) (k : Nat) (tf : FieldInfo)
    (h : fs[k]? = some (tf, Slot.struct gs)) : sizeOf gs < sizeOf fs := by
  have hm : (tf, Slot.struct gs) ∈ fs := List.getElem?_mem h
  have := List.sizeOf_lt_of_mem hm
  simp only [Prod.mk.sizeOf_spec, Slot.struct.sizeOf_spec] at this
  omega

/-- A loop that fails has a first failing field in the depth-first walk. -/
theorem unmarshalFields_first_failure (L : Lib) (env : Env) (n : Nat) :
    ∀ (fs fs' : List (FieldInfo × Slot)) (pre : Str) (err : Err), sizeOf fs ≤ n →
      unmarshalFields L env pre fs = (some err, fs') →
      ∃ path, FirstFailure L env path pre fs err fs' := by
  induction n with
  | zero =>
    intro fs fs' pre err hn h
    cases fs with
    | nil => simp [unmarshalFields] at h
    | cons x rest => simp at hn
  | succ n ih =>
    intro fs fs' pre err hn h
    obtain ⟨k, tf, vf, hk, hfail, hres, hbefore, hafter⟩ :=
      unmarshalFields_error L env pre fs fs' err h
    rcases unmarshalField_error_cases L env pre tf vf err hfail with
      ⟨t, v, rfl, h2⟩ | ⟨gs, gs', rfl, hexp, h2, hnest | ⟨hnest, herr⟩⟩
    · refine ⟨[k], hbefore, hafter, tf, _, hk, hfail, Or.inl ⟨t, v, rfl, ?_⟩⟩
      rw [hres, h2]
    · have hlt := sizeOf_nested_lt fs gs k tf hk
      obtain ⟨path, hp⟩ := ih gs gs' _ err (by omega) hnest
      cases path with
      | nil => simp [FirstFailure] at hp
      | cons j path =>
        refine ⟨k :: j :: path, hbefore, hafter, tf, gs, gs', hk, hexp, ?_, hp⟩
        rw [hres, h2]
    · refine ⟨[k], hbefore, hafter, tf, _, hk, hfail,
        Or.inr ⟨gs, gs', rfl, hexp, hnest, herr, ?_⟩⟩
      rw [hres, h2]

/-- C15. For every record on which `Unmarshal` fails, the error returned is
that of the first failing field of the depth-first walk in declaration order:
there is a path to that field such that, at every struct on the path, the
fields before the one on the path were processed without error and hold what
their round left (a field with a non-empty default its newly converted value),
and the fields after it hold what they held before the call. -/
theorem Unmarshal_first_failure (L : Lib) (env : Env) (pre : Str)
    (fs : List (FieldInfo × Slot)) (err : Err) (after : Target)
    (h : Unmarshal L env (.ptr (.struct fs)) pre = (some err, after)) :
    ∃ fs' path, after = .ptr (.struct fs') ∧ FirstFailure L env path pre fs err fs' := by
  rw [Unmarshal_struct] at h
  simp only [Prod.mk.injEq] at h
  obtain ⟨h1, h2⟩ := h
  obtain ⟨path, hp⟩ := unmarshalFields_first_failure L env (sizeOf fs) fs
    (unmarshalFields L env pre fs).2 pre err (Nat.le_refl _) (Prod.ext h1 rfl)
  exact ⟨_, path, h2.symm, hp⟩

theorem Unmarshal_failingRecord :
    Unmarshal asciiLib (fun _ => none) (.ptr (.struct failingRecord)) "APP".toList =
      (some (.num "Atoi" "oops".toList .syntaxErr), .ptr (.struct failingRecordAfter)) := by
  rfl

theorem Unmarshal_first_failure_witness :
    ∃ fs' path, Target.ptr (.struct failingRecordAfter) = .ptr (.struct fs') ∧
      FirstFailure asciiLib (fun _ => none) path "APP".toList failingRecord
        (.num "Atoi" "oops".toList .syntaxErr) fs' :=
  Unmarshal_first_failure asciiLib (fun _ => none) "APP".toList failingRecord
    (.num "Atoi" "oops".toList .syntaxErr) (.ptr (.struct failingRecordAfter))
    Unmarshal_failingRecord


/-- Equal float keys that differ: the map keeps one entry, with the key and
the value of the last pair, so `0:1,-0:2` gives the key `-0` and `-0:1,0:2`
the key `+0`. -/
theorem set_map_signed_zero_keys (f : Value) :
    set signedZeroLib (.map .float64 (.int .int)) f "0:1,-0:2".toList =
      (none, .map [(.float (2 ^ 63), .int 2)]) ∧
    set signedZeroLib (.map .float64 (.int .int)) f "-0:1,0:2".toList =
      (none, .map [(.float 0, .int 2)]) := by
  exact ⟨rfl, rfl⟩

end Conf
